import Mathlib

/-!
Shallow embedding of the cppdep dependency extractor (cppdep.go).

Files and components are kept in the two project-owned lists, exactly as in
the Go source; all Go pointers (`*file`, `*component`) become indices into
those lists.  The two mutating passes `assign_files_to_components` and
`generate_file_deps` become folds that thread the project state.
-/

namespace Cppdep

/-- Embeds the Go struct `file`: the root-relative path, the raw inclusion
strings extracted from the file, the owning component (a pointer in Go, here
an index into `Project.components`, `none` while unassigned), and the two
edge lists (indices into `Project.files`). -/
structure PFile where
  path : String
  include_paths : List String
  component : Option Nat := none
  incoming_links : List Nat := []
  outgoing_links : List Nat := []
deriving Repr, DecidableEq

/-- Embeds the Go struct `component`: its root-relative directory path and
the indices of the files assigned to it. -/
structure Component where
  path : String
  files : List Nat := []
deriving Repr, DecidableEq

/-- Embeds the Go struct `project` (the `root` string only feeds I/O-side
path trimming and is dropped). -/
structure Project where
  files : List PFile
  components : List Component
deriving Repr, DecidableEq

/-- Replaces the element at position `n` (no-op when out of range); stands in
for the in-place slice updates of the Go code. -/
def modifyIdx : List α → Nat → (α → α) → List α
  | [], _, _ => []
  | a :: l, 0, g => g a :: l
  | a :: l, n+1, g => a :: modifyIdx l n g

/-- Reads a projected field of the `i`-th file, with a default when `i` is
out of range (the Go code never indexes out of range). -/
def look (proj : PFile → β) (dflt : β) (fs : List PFile) (i : Nat) : β :=
  ((fs[i]?).map proj).getD dflt

/-- The outgoing edge list of file `i`. -/
def outAt (fs : List PFile) (i : Nat) : List Nat :=
  look PFile.outgoing_links [] fs i

/-- The incoming edge list of file `i`. -/
def inAt (fs : List PFile) (i : Nat) : List Nat :=
  look PFile.incoming_links [] fs i

/-- The owning component of file `i` (`none` while unassigned, mirroring the
Go nil pointer). -/
def compAt (fs : List PFile) (i : Nat) : Option Nat :=
  look PFile.component none fs i

/-- The path of file `i` (as an option so out-of-range stays distinguishable). -/
def pathAt (fs : List PFile) (i : Nat) : Option String :=
  (fs[i]?).map PFile.path

/-- The raw inclusion strings of file `i`. -/
def includesAt (fs : List PFile) (i : Nat) : List String :=
  look PFile.include_paths [] fs i

/-- Concatenation of the images of `f`, the only list monad operation the
embedding needs. -/
def catMap (f : α → List β) : List α → List β
  | [] => []
  | a :: l => f a ++ catMap f l

/-! ## Component assignment (`assign_files_to_components`) -/

/-- Splits a character list at `/` separators (the Go code walks paths with
`strings.Index`/`strings.LastIndex` on `/`; the segment view is equivalent). -/
def splitSegsAux (cur : List Char) : List Char → List (List Char)
  | [] => [cur.reverse]
  | c :: rest =>
    if c = '/' then cur.reverse :: splitSegsAux [] rest
    else splitSegsAux (c :: cur) rest

/-- The `/`-separated segments of a path (`""` gives `[""]`, like Go's
`strings.Split`). -/
def splitPath (p : String) : List String :=
  (splitSegsAux [] p.data).map (fun l => String.mk l)

/-- Joins path segments back with the `/` separator. -/
def joinSegs : List String → String
  | [] => ""
  | [s] => s
  | s :: rest => s ++ "/" ++ joinSegs rest

/-- All prefixes of a segment list, shortest first (`[] `included`). -/
def initsSeg : List String → List (List String)
  | [] => [[]]
  | a :: l => [] :: (initsSeg l).map (fun xs => a :: xs)

/-- The candidate sequence probed by the Go assignment loop: the strict
ancestor directories of `p`, most specific first, ending with the empty
string.  The Go loop repeatedly truncates at the last `/` (`path[:idx]`),
which on the segment view is dropping the last segment and then shortening
one segment at a time. -/
def ancestors (p : String) : List String :=
  ((initsSeg ((splitPath p).dropLast)).reverse).map joinSegs

/-- First index of a component whose path equals `cand`, mirroring the inner
`for i_c, c := range p.components` scan of the assignment loop. -/
def firstIdx (q : Component → Bool) : List Component → Option Nat
  | [] => none
  | c :: rest => if q c then some 0 else (firstIdx q rest).map (· + 1)

/-- First hit of `f` along a candidate list, mirroring the outer candidate
loop of the assignment pass (it stops at the first matching candidate). -/
def firstSome (f : String → Option Nat) : List String → Option Nat
  | [] => none
  | a :: l => match f a with
    | some j => some j
    | none => firstSome f l

/-- The component the assignment loop selects for a file at `path`: the first
(deepest) strict ancestor of `path` that is the path of some component, the
component index being the first match in component-list order. -/
def specOwner (comps : List Component) (path : String) : Option Nat :=
  firstSome (fun cand => firstIdx (fun c => c.path = cand) comps) (ancestors path)

/-- The owner the assignment pass will record for file `i` of `p`. -/
def ownerOf (p : Project) (i : Nat) : Option Nat :=
  match pathAt p.files i with
  | none => none
  | some pa => specOwner p.components pa

/-- One iteration of the outer loop of `assign_files_to_components`: probe
the ancestors of file `i`'s path, and on the first component match append
`i` to that component's file list and set the file's component pointer.
When nothing matches the loop falls through leaving the file untouched
(the Go code reports nothing in that case). -/
def assignOne (p : Project) (i : Nat) : Project :=
  match ownerOf p i with
  | none => p
  | some j =>
    { files := modifyIdx p.files i (fun f => { f with component := some j }),
      components := modifyIdx p.components j (fun c => { c with files := c.files ++ [i] }) }

/-- The full assignment pass: the Go `for i_file, file := range p.files`. -/
def assign_files_to_components (p : Project) : Project :=
  (List.range p.files.length).foldl assignOne p

/-! ## Include resolution (`generate_file_deps`) -/

/-- Non-empty tails of a segment list (the list itself first). -/
def tailsNE : List String → List (List String)
  | [] => []
  | s :: rest => (s :: rest) :: tailsNE rest

/-- The keys a file at `p` is registered under in `path_to_files`: the full
path and every suffix obtained by repeatedly stripping the leftmost
`/`-delimited segment. -/
def suffixes (p : String) : List String :=
  (tailsNE (splitPath p)).map joinSegs

/-- Registration of files (from index `k` on) under an include string `s`:
the file indices whose path has `s` among its suffixes, in file order.  This
is the content of the Go `path_to_files` map at key `s`, which is built by
appending each file index under each of its suffixes in file order. -/
def pathToFilesFrom (k : Nat) (fs : List PFile) (s : String) : List Nat :=
  match fs with
  | [] => []
  | f :: rest => (if s ∈ suffixes f.path then [k] else []) ++ pathToFilesFrom (k+1) rest s

/-- The `path_to_files` index of `generate_file_deps` as a lookup function;
an absent key is exactly an empty result list. -/
def pathToFiles (fs : List PFile) (s : String) : List Nat :=
  pathToFilesFrom 0 fs s

/-- The slice-append update `file.outgoing_links = append(..., dep)`. -/
def gOut (j : Nat) (f : PFile) : PFile :=
  { f with outgoing_links := f.outgoing_links ++ [j] }

/-- The slice-append update `dep.incoming_links = append(..., file)`. -/
def gIn (i : Nat) (f : PFile) : PFile :=
  { f with incoming_links := f.incoming_links ++ [i] }

/-- Appends one edge `i → j`: `j` onto `i`'s outgoing list and `i` onto
`j`'s incoming list, the two symmetric appends of the resolver. -/
def addEdge (fs : List PFile) (i j : Nat) : List PFile :=
  modifyIdx (modifyIdx fs i (gOut j)) j (gIn i)

/-- Appends edges from `i` to every file in `deps`, in order — the
`for _, dep := range deps` loop. -/
def addEdges (fs : List PFile) (i : Nat) (deps : List Nat) : List PFile :=
  deps.foldl (fun a j => addEdge a i j) fs

/-- The `is_present_in_this_component` scan: some candidate file shares the
source file's component pointer (two Go nil pointers also compare equal). -/
def sameComp (fs : List PFile) (i : Nat) (deps : List Nat) : Bool :=
  deps.any (fun j => decide (compAt fs j = compAt fs i))

/-- Resolution of one raw inclusion string `inc` of file `i`: missing keys
and same-component hits produce nothing, otherwise edges to every candidate. -/
def resolveInclude (p2f : String → List Nat) (fs : List PFile) (i : Nat) (inc : String) :
    List PFile :=
  let deps := p2f inc
  if deps.isEmpty then fs
  else if sameComp fs i deps then fs
  else addEdges fs i deps

/-- Resolution of all inclusion strings of file `i`, in order. -/
def resolveFile (p2f : String → List Nat) (fs : List PFile) (i : Nat) : List PFile :=
  (includesAt fs i).foldl (fun a inc => resolveInclude p2f a i inc) fs

/-- The full resolution pass `generate_file_deps`: build the index once from
the current paths, then resolve every file's includes in file order. -/
def generate_file_deps (p : Project) : Project :=
  { p with
    files := (List.range p.files.length).foldl
      (fun a i => resolveFile (pathToFiles p.files) a i) p.files }

/-- The two core passes in their `main` order. -/
def runPasses (p : Project) : Project :=
  generate_file_deps (assign_files_to_components p)

/-- Builds the pristine project state the discovery step hands to the core:
paths with their raw inclusion strings, and the component marker paths. -/
def mkProject (input : List (String × List String)) (comps : List String) : Project :=
  { files := input.map (fun pi => { path := pi.1, include_paths := pi.2 }),
    components := comps.map (fun s => { path := s }) }

/-! ## Aggregation (`linked_components` and the sorted report of `dbg`) -/

/-- The path of component `k` (`""` out of range; the Go code only reaches
valid component pointers here). -/
def compPathAt (p : Project) (k : Nat) : String :=
  ((p.components[k]?).map Component.path).getD ""

/-- The file list of component `c`. -/
def compFilesAt (p : Project) (c : Nat) : List Nat :=
  ((p.components[c]?).map Component.files).getD []

/-- Appends an edge to the bucket of key `k` of the `incoming`/`outgoing`
maps of `linked_components`, keyed (as the Go map is) by the component
pointer; a fresh key opens a new bucket at the end. -/
def bucketAdd (m : List (Nat × List (Nat × Nat))) (k : Nat) (e : Nat × Nat) :
    List (Nat × List (Nat × Nat)) :=
  match m with
  | [] => [(k, [e])]
  | (k', es) :: rest =>
    if k' = k then (k', es ++ [e]) :: rest else (k', es) :: bucketAdd rest k e

/-- The bucket of key `k` (empty when `k` was never added). -/
def bucketGet (m : List (Nat × List (Nat × Nat))) (k : Nat) : List (Nat × Nat) :=
  match m with
  | [] => []
  | (k', es) :: rest => if k' = k then es else bucketGet rest k

/-- One link examined by `linked_components`: either a bucket key (the
linking component) with the edge to record, or nothing when the linking
component's path equals `c`'s.  A link to an unassigned file is skipped
(Go would dereference a nil component pointer there; after assignment with
a root component this cannot occur). -/
def bucketStep (sel : Nat → Option (Nat × (Nat × Nat)))
    (m : List (Nat × List (Nat × Nat))) (x : Nat) : List (Nat × List (Nat × Nat)) :=
  match sel x with
  | none => m
  | some ke => bucketAdd m ke.1 ke.2

/-- The key/edge selector for an incoming link `i` of file `f` of
component `c`: the edge is `(i, f)` keyed by `i`'s component. -/
def inSel (p : Project) (c f : Nat) (i : Nat) : Option (Nat × (Nat × Nat)) :=
  match compAt p.files i with
  | none => none
  | some k => if compPathAt p k ≠ compPathAt p c then some (k, (i, f)) else none

/-- The key/edge selector for an outgoing link `o` of file `f` of
component `c`: the edge is `(f, o)` keyed by `o`'s component. -/
def outSel (p : Project) (c f : Nat) (o : Nat) : Option (Nat × (Nat × Nat)) :=
  match compAt p.files o with
  | none => none
  | some k => if compPathAt p k ≠ compPathAt p c then some (k, (f, o)) else none

/-- The `incoming` map built by `linked_components` for component `c`: for
every file of `c` in order and every incoming link in order, the edge
`(in, f)` bucketed under the linking component when its path differs from
`c`'s. -/
def linked_incoming (p : Project) (c : Nat) : List (Nat × List (Nat × Nat)) :=
  (compFilesAt p c).foldl (fun m f => (inAt p.files f).foldl (bucketStep (inSel p c f)) m) []

/-- The `outgoing` map built by `linked_components` for component `c`. -/
def linked_outgoing (p : Project) (c : Nat) : List (Nat × List (Nat × Nat)) :=
  (compFilesAt p c).foldl (fun m f => (outAt p.files f).foldl (bucketStep (outSel p c f)) m) []

/-- The edges a selector keeps for bucket `k` out of one link `x`. -/
def selPick (sel : Nat → Option (Nat × (Nat × Nat))) (k : Nat) (x : Nat) : List (Nat × Nat) :=
  match sel x with
  | none => []
  | some ke => if ke.1 = k then [ke.2] else []

/-- Direct description of the `outgoing` bucket of partner `k` for
component `c`: every qualifying occurrence of a link of every file of `c`,
in traversal order. -/
def outEdgesToComp (p : Project) (c k : Nat) : List (Nat × Nat) :=
  catMap (fun f => catMap (selPick (outSel p c f) k) (outAt p.files f)) (compFilesAt p c)

/-- Direct description of the `incoming` bucket of partner `k` for
component `c`. -/
def inEdgesToComp (p : Project) (c k : Nat) : List (Nat × Nat) :=
  catMap (fun f => catMap (selPick (inSel p c f) k) (inAt p.files f)) (compFilesAt p c)

/-- Embeds the Go struct `dependency`: a partner component together with the
edges crossing to it (edges are `(from, to)` pairs of file indices). -/
structure Dependency where
  component : Nat
  edges : List (Nat × Nat)
deriving Repr, DecidableEq

/-- The comparison used by `sort.Slice` in `dbg`: partner path order. -/
def depLE (p : Project) (a b : Dependency) : Bool :=
  decide (compPathAt p a.component ≤ compPathAt p b.component)

/-- Insertion into a run sorted by partner path. -/
def insertDep (p : Project) (d : Dependency) : List Dependency → List Dependency
  | [] => [d]
  | e :: rest => if depLE p d e then d :: e :: rest else e :: insertDep p d rest

/-- Sorting by partner path, modelling the `sort.Slice` calls of `dbg` (any
permutation sorted by the same key reports the same sequence of paths). -/
def sortDeps (p : Project) (l : List Dependency) : List Dependency :=
  l.foldr (insertDep p) []

/-- The incoming dependency list as reported by `dbg`: bucketed then sorted
by partner component path. -/
def reported_incoming (p : Project) (c : Nat) : List Dependency :=
  sortDeps p ((linked_incoming p c).map (fun ke => { component := ke.1, edges := ke.2 }))

/-- The outgoing dependency list as reported by `dbg`. -/
def reported_outgoing (p : Project) (c : Nat) : List Dependency :=
  sortDeps p ((linked_outgoing p c).map (fun ke => { component := ke.1, edges := ke.2 }))

/-! ## Include extraction (`extract_includes`) -/

/-- Position of the first `"` or `<` in the line (`strings.IndexAny`). -/
def idxStart : List Char → Option Nat
  | [] => none
  | c :: rest =>
    if c = '"' ∨ c = '<' then some 0 else (idxStart rest).map (· + 1)

/-- Position of the first `"` or `>` scanning from the front; applied to the
reversed line below to model `strings.LastIndexAny`. -/
def idxEndAux : List Char → Option Nat
  | [] => none
  | c :: rest =>
    if c = '"' ∨ c = '>' then some 0 else (idxEndAux rest).map (· + 1)

/-- Position of the last `"` or `>` in the line (`strings.LastIndexAny`). -/
def idxEnd (cs : List Char) : Option Nat :=
  (idxEndAux cs.reverse).map (fun k => cs.length - 1 - k)

/-- Whether a character list contains the `..` traversal token
(`strings.Contains(include_path, "..")`). -/
def hasDotDot : List Char → Bool
  | '.' :: '.' :: _ => true
  | _ :: rest => hasDotDot rest
  | [] => false

/-- The delimiter extraction of `extract_includes`: the text strictly between
the first `"`/`<` and the last `"`/`>`, or `none` when either delimiter is
missing or they are inverted (`iStart >= iEnd`). -/
def delimExtract (line : String) : Option String :=
  match idxStart line.data, idxEnd line.data with
  | some s, some e =>
    if s ≥ e then none
    else some (String.mk ((line.data.drop (s + 1)).take (e - s - 1)))
  | _, _ => none

/-- Processing of a single scanned line by `extract_includes`: the extracted
string, or a malformed event carrying what the code would print (the whole
line when no delimiter pair exists, the extracted string when it holds a
backslash or `..`), or nothing for a line that is not an include directive. -/
inductive LineOut where
  | skip : LineOut
  | malformed : String → LineOut
  | ok : String → LineOut
deriving Repr, DecidableEq

/-- One iteration of the scanner loop of `extract_includes`. -/
def extractLine (line : String) : LineOut :=
  if ("#include".data).isPrefixOf line.data then
    match delimExtract line with
    | none => .malformed line
    | some s =>
      if s.data.contains '\\' ∨ hasDotDot s.data then .malformed s
      else .ok s
  else .skip

/-- The whole of `extract_includes` over the scanned lines of a file:
the extracted inclusion strings in order, and the malformed-include
diagnostics, which are emitted only when `warn_malformed` is set. -/
def extract_includes (lines : List String) (warn_malformed : Bool) :
    List String × List String :=
  lines.foldl (fun acc line =>
    match extractLine line with
    | .skip => acc
    | .malformed d => (acc.1, acc.2 ++ if warn_malformed then [d] else [])
    | .ok s => (acc.1 ++ [s], acc.2)) ([], [])

/-! ## Worked example states used to exercise the theorems -/

/-- A post-assignment state where `u.h` exists both in the including file's
component (1) and in a sibling component (2). -/
def exC1fs : List PFile :=
  [{ path := "a/x.h", include_paths := ["u.h"], component := some 1 },
   { path := "a/u.h", include_paths := [], component := some 1 },
   { path := "b/u.h", include_paths := [], component := some 2 }]

/-- A post-assignment state where `u.h` exists only in two foreign
components, so resolving it fans out to both. -/
def exC3q : Project :=
  { files := [{ path := "a/x.h", include_paths := ["u.h"], component := some 0 },
              { path := "b/u.h", include_paths := [], component := some 1 },
              { path := "c/u.h", include_paths := [], component := some 2 }],
    components := [{ path := "a" }, { path := "b" }, { path := "c" }] }

/-- A post-assignment state whose single file includes a suffix of its own
path. -/
def exC9q : Project :=
  { files := [{ path := "a/x.h", include_paths := ["x.h"], component := some 0 }],
    components := [{ path := "a" }] }

/-- A post-assignment state whose first file names the same target twice
through two different raw strings. -/
def exC10q : Project :=
  { files := [{ path := "a/x.h", include_paths := ["y.h", "b/y.h"], component := some 0 },
              { path := "b/y.h", include_paths := [], component := some 1 }],
    components := [{ path := "a", files := [0] }, { path := "b", files := [1] }] }

/-! ## Derived descriptions of what the two passes append -/

/-- Whether resolution of `inc` from file `i` creates edges: the key is
present in the index and no candidate file shares `i`'s component. -/
def fires (p2f : String → List Nat) (fs : List PFile) (i : Nat) (inc : String) : Bool :=
  !(p2f inc).isEmpty && !(sameComp fs i (p2f inc))

/-- The outgoing-edge targets contributed by the inclusion strings `L` of
file `i`: for each occurrence in order, all files of the index entry when
resolution fires. -/
def outContribL (p2f : String → List Nat) (fs : List PFile) (i : Nat)
    (L : List String) : List Nat :=
  catMap (fun inc => if fires p2f fs i inc then p2f inc else []) L

/-- The outgoing-edge targets the resolution pass appends to file `i`. -/
def outContrib (p2f : String → List Nat) (fs : List PFile) (i : Nat) : List Nat :=
  outContribL p2f fs i (includesAt fs i)

/-- The file indices the assignment pass appends to component `c` while
probing the files of `K` in order. -/
def asgContrib (p : Project) (K : List Nat) (c : Nat) : List Nat :=
  catMap (fun k => if ownerOf p k = some c then [k] else []) K

/-! ## Basic lemmas: `modifyIdx` and field access -/

theorem length_modifyIdx (l : List α) (n : Nat) (g : α → α) :
    (modifyIdx l n g).length = l.length := by
  induction l generalizing n with
  | nil => rfl
  | cons a l ih =>
    cases n with
    | zero => rfl
    | succ n => simp [modifyIdx, ih]

theorem getElem?_modifyIdx (l : List α) (n m : Nat) (g : α → α) :
    (modifyIdx l n g)[m]? = if m = n then (l[m]?).map g else l[m]? := by
  induction l generalizing n m with
  | nil => simp [modifyIdx]
  | cons a l ih =>
    cases n with
    | zero =>
      cases m with
      | zero => simp [modifyIdx]
      | succ m => simp [modifyIdx]
    | succ n =>
      cases m with
      | zero => simp [modifyIdx]
      | succ m => simpa [modifyIdx] using ih n m

theorem map_modifyIdx_preserved (proj : α → β) (g : α → α)
    (h : ∀ x, proj (g x) = proj x) (l : List α) (n : Nat) :
    (modifyIdx l n g).map proj = l.map proj := by
  induction l generalizing n with
  | nil => rfl
  | cons a l ih =>
    cases n with
    | zero => simp [modifyIdx, h]
    | succ n => simp [modifyIdx, ih]

theorem look_modifyIdx_preserved (proj : PFile → β) (d : β) (g : PFile → PFile)
    (h : ∀ f, proj (g f) = proj f) (fs : List PFile) (n a : Nat) :
    look proj d (modifyIdx fs n g) a = look proj d fs a := by
  unfold look
  rw [getElem?_modifyIdx]
  split
  · cases fs[a]? <;> simp [h]
  · rfl

theorem look_modifyIdx_self (proj : PFile → β) (d : β) (g : PFile → PFile)
    (fs : List PFile) (n : Nat) (f : PFile) (hf : fs[n]? = some f) :
    look proj d (modifyIdx fs n g) n = proj (g f) := by
  unfold look
  rw [getElem?_modifyIdx]
  simp [hf]

theorem look_eq_of_map_eq (proj : PFile → β) (d : β) (fs₁ fs₂ : List PFile)
    (h : fs₁.map proj = fs₂.map proj) (a : Nat) :
    look proj d fs₁ a = look proj d fs₂ a := by
  unfold look
  have h1 : (fs₁.map proj)[a]? = (fs₂.map proj)[a]? := by rw [h]
  simpa [List.getElem?_map] using congrArg (fun o => o.getD d) h1

theorem look_modifyIdx_same (proj : PFile → β) (d : β) (g : PFile → PFile)
    (fs : List PFile) (n a : Nat) :
    look proj d (modifyIdx fs n g) a =
      if a = n then ((fs[a]?).map (fun f => proj (g f))).getD d else look proj d fs a := by
  unfold look
  rw [getElem?_modifyIdx]
  split
  · cases fs[a]? <;> rfl
  · rfl

/-! ## Lemmas on `addEdge` and `addEdges` -/

theorem length_addEdge (fs : List PFile) (i j : Nat) :
    (addEdge fs i j).length = fs.length := by
  unfold addEdge
  rw [length_modifyIdx, length_modifyIdx]

theorem outAt_addEdge (fs : List PFile) (i j a : Nat) :
    outAt (addEdge fs i j) a =
      if a = i ∧ a < fs.length then outAt fs a ++ [j] else outAt fs a := by
  unfold addEdge outAt
  rw [look_modifyIdx_preserved PFile.outgoing_links [] (gIn i) (fun f => rfl),
    look_modifyIdx_same]
  by_cases hai : a = i
  · subst hai
    by_cases hl : a < fs.length
    · simp [hl, gOut, look, List.getElem?_eq_getElem hl]
    · have hnone : fs[a]? = none := List.getElem?_eq_none (by omega)
      simp [hl, hnone, look]
  · simp [hai]

theorem inAt_addEdge (fs : List PFile) (i j b : Nat) :
    inAt (addEdge fs i j) b =
      if b = j ∧ b < fs.length then inAt fs b ++ [i] else inAt fs b := by
  unfold addEdge inAt
  rw [look_modifyIdx_same]
  have hin : ((modifyIdx fs i (gOut j))[b]?).map (fun f => PFile.incoming_links (gIn i f))
      = ((fs[b]?).map (fun f => f.incoming_links ++ [i])) := by
    rw [getElem?_modifyIdx]
    split
    · cases fs[b]? <;> rfl
    · cases fs[b]? <;> rfl
  by_cases hbj : b = j
  · subst hbj
    rw [if_pos rfl, hin]
    by_cases hl : b < fs.length
    · simp [hl, look, List.getElem?_eq_getElem hl]
    · have hnone : fs[b]? = none := List.getElem?_eq_none (by omega)
      simp [hl, hnone, look]
  · rw [if_neg hbj,
      look_modifyIdx_preserved PFile.incoming_links [] (gOut j) (fun f => rfl)]
    simp [hbj]

theorem compAt_addEdge (fs : List PFile) (i j a : Nat) :
    compAt (addEdge fs i j) a = compAt fs a := by
  unfold addEdge compAt
  rw [look_modifyIdx_preserved PFile.component none (gIn i) (fun f => rfl),
    look_modifyIdx_preserved PFile.component none (gOut j) (fun f => rfl)]

theorem includesAt_addEdge (fs : List PFile) (i j a : Nat) :
    includesAt (addEdge fs i j) a = includesAt fs a := by
  unfold addEdge includesAt
  rw [look_modifyIdx_preserved PFile.include_paths [] (gIn i) (fun f => rfl),
    look_modifyIdx_preserved PFile.include_paths [] (gOut j) (fun f => rfl)]

theorem map_path_addEdge (fs : List PFile) (i j : Nat) :
    (addEdge fs i j).map PFile.path = fs.map PFile.path := by
  unfold addEdge
  rw [map_modifyIdx_preserved PFile.path (gIn i) (fun f => rfl),
    map_modifyIdx_preserved PFile.path (gOut j) (fun f => rfl)]

theorem map_includes_addEdge (fs : List PFile) (i j : Nat) :
    (addEdge fs i j).map PFile.include_paths = fs.map PFile.include_paths := by
  unfold addEdge
  rw [map_modifyIdx_preserved PFile.include_paths (gIn i) (fun f => rfl),
    map_modifyIdx_preserved PFile.include_paths (gOut j) (fun f => rfl)]

theorem addEdges_nil (fs : List PFile) (i : Nat) : addEdges fs i [] = fs := rfl

theorem addEdges_cons (fs : List PFile) (i j : Nat) (deps : List Nat) :
    addEdges fs i (j :: deps) = addEdges (addEdge fs i j) i deps := rfl

theorem length_addEdges (fs : List PFile) (i : Nat) (deps : List Nat) :
    (addEdges fs i deps).length = fs.length := by
  induction deps generalizing fs with
  | nil => rfl
  | cons j rest ih => rw [addEdges_cons, ih, length_addEdge]

theorem compAt_addEdges (fs : List PFile) (i : Nat) (deps : List Nat) (a : Nat) :
    compAt (addEdges fs i deps) a = compAt fs a := by
  induction deps generalizing fs with
  | nil => rfl
  | cons j rest ih => rw [addEdges_cons, ih, compAt_addEdge]

theorem includesAt_addEdges (fs : List PFile) (i : Nat) (deps : List Nat) (a : Nat) :
    includesAt (addEdges fs i deps) a = includesAt fs a := by
  induction deps generalizing fs with
  | nil => rfl
  | cons j rest ih => rw [addEdges_cons, ih, includesAt_addEdge]

theorem map_path_addEdges (fs : List PFile) (i : Nat) (deps : List Nat) :
    (addEdges fs i deps).map PFile.path = fs.map PFile.path := by
  induction deps generalizing fs with
  | nil => rfl
  | cons j rest ih => rw [addEdges_cons, ih, map_path_addEdge]

theorem map_includes_addEdges (fs : List PFile) (i : Nat) (deps : List Nat) :
    (addEdges fs i deps).map PFile.include_paths = fs.map PFile.include_paths := by
  induction deps generalizing fs with
  | nil => rfl
  | cons j rest ih => rw [addEdges_cons, ih, map_includes_addEdge]

theorem outAt_addEdges (fs : List PFile) (i : Nat) (deps : List Nat) (a : Nat) :
    outAt (addEdges fs i deps) a =
      if a = i ∧ a < fs.length then outAt fs a ++ deps else outAt fs a := by
  induction deps generalizing fs with
  | nil => rw [addEdges_nil]; split <;> simp
  | cons j rest ih =>
    rw [addEdges_cons, ih, length_addEdge, outAt_addEdge]
    by_cases h : a = i ∧ a < fs.length
    · obtain ⟨ha, hl⟩ := h
      subst ha
      simp [hl, List.append_assoc]
    · simp [h]

theorem count_inAt_addEdges (fs : List PFile) (i : Nat) (deps : List Nat) (b x : Nat) :
    (inAt (addEdges fs i deps) b).count x =
      (inAt fs b).count x + if b < fs.length ∧ x = i then deps.count b else 0 := by
  induction deps generalizing fs with
  | nil => simp [addEdges_nil]
  | cons j rest ih =>
    rw [addEdges_cons, ih, length_addEdge, inAt_addEdge]
    by_cases hbj : b = j
    · subst hbj
      by_cases hbl : b < fs.length
      · by_cases hxi : x = i
        · subst hxi
          simp [hbl, List.count_append, List.count_cons]
          omega
        · simp [hbl, hxi, List.count_append, List.count_cons, Ne.symm hxi]
      · simp [hbl]
    · by_cases hbl : b < fs.length
      · by_cases hxi : x = i
        · simp [hbj, hbl, hxi, List.count_cons, Ne.symm hbj]
        · simp [hbj, hbl, hxi]
      · simp [hbj, hbl]

/-! ## Lemmas on `resolveInclude`, `resolveFile` and `generate_file_deps` -/

theorem resolveInclude_eq (p2f : String → List Nat) (fs : List PFile) (i : Nat)
    (inc : String) :
    resolveInclude p2f fs i inc =
      if fires p2f fs i inc then addEdges fs i (p2f inc) else fs := by
  unfold resolveInclude fires
  by_cases h1 : (p2f inc).isEmpty <;> by_cases h2 : sameComp fs i (p2f inc) <;>
    simp [h1, h2]

theorem sameComp_congr (fs₁ fs₂ : List PFile)
    (h : ∀ a, compAt fs₁ a = compAt fs₂ a) (i : Nat) (deps : List Nat) :
    sameComp fs₁ i deps = sameComp fs₂ i deps := by
  unfold sameComp
  have hf : (fun j => decide (compAt fs₁ j = compAt fs₁ i)) =
      (fun j => decide (compAt fs₂ j = compAt fs₂ i)) := by
    funext j
    rw [h, h]
  rw [hf]

theorem fires_congr (p2f : String → List Nat) (fs₁ fs₂ : List PFile)
    (h : ∀ a, compAt fs₁ a = compAt fs₂ a) (i : Nat) (inc : String) :
    fires p2f fs₁ i inc = fires p2f fs₂ i inc := by
  unfold fires
  rw [sameComp_congr fs₁ fs₂ h]

theorem outContribL_congr (p2f : String → List Nat) (fs₁ fs₂ : List PFile)
    (h : ∀ a, compAt fs₁ a = compAt fs₂ a) (i : Nat) (L : List String) :
    outContribL p2f fs₁ i L = outContribL p2f fs₂ i L := by
  induction L with
  | nil => rfl
  | cons inc rest ih =>
    unfold outContribL catMap
    rw [fires_congr p2f fs₁ fs₂ h]
    unfold outContribL at ih
    rw [ih]

theorem compAt_resolveInclude (p2f : String → List Nat) (fs : List PFile) (i : Nat)
    (inc : String) (a : Nat) :
    compAt (resolveInclude p2f fs i inc) a = compAt fs a := by
  rw [resolveInclude_eq]
  split
  · rw [compAt_addEdges]
  · rfl

theorem includesAt_resolveInclude (p2f : String → List Nat) (fs : List PFile) (i : Nat)
    (inc : String) (a : Nat) :
    includesAt (resolveInclude p2f fs i inc) a = includesAt fs a := by
  rw [resolveInclude_eq]
  split
  · rw [includesAt_addEdges]
  · rfl

theorem length_resolveInclude (p2f : String → List Nat) (fs : List PFile) (i : Nat)
    (inc : String) :
    (resolveInclude p2f fs i inc).length = fs.length := by
  rw [resolveInclude_eq]
  split
  · rw [length_addEdges]
  · rfl

theorem map_path_resolveInclude (p2f : String → List Nat) (fs : List PFile) (i : Nat)
    (inc : String) :
    (resolveInclude p2f fs i inc).map PFile.path = fs.map PFile.path := by
  rw [resolveInclude_eq]
  split
  · rw [map_path_addEdges]
  · rfl

theorem map_includes_resolveInclude (p2f : String → List Nat) (fs : List PFile) (i : Nat)
    (inc : String) :
    (resolveInclude p2f fs i inc).map PFile.include_paths = fs.map PFile.include_paths := by
  rw [resolveInclude_eq]
  split
  · rw [map_includes_addEdges]
  · rfl

theorem outAt_foldIncludes (p2f : String → List Nat) (i : Nat) (L : List String)
    (fs : List PFile) (a : Nat) :
    outAt (L.foldl (fun acc inc => resolveInclude p2f acc i inc) fs) a =
      if a = i ∧ a < fs.length then outAt fs a ++ outContribL p2f fs i L
      else outAt fs a := by
  induction L generalizing fs with
  | nil => split <;> simp [outContribL, catMap]
  | cons inc rest ih =>
    rw [List.foldl_cons, ih, length_resolveInclude,
      outContribL_congr p2f (resolveInclude p2f fs i inc) fs
        (fun a => compAt_resolveInclude p2f fs i inc a) i rest]
    rw [resolveInclude_eq]
    by_cases hf : fires p2f fs i inc
    · rw [if_pos hf, outAt_addEdges]
      by_cases h : a = i ∧ a < fs.length
      · obtain ⟨ha, hl⟩ := h
        subst ha
        simp [hl, outContribL, catMap, hf, List.append_assoc]
      · simp [h]
    · rw [if_neg hf]
      by_cases h : a = i ∧ a < fs.length
      · obtain ⟨ha, hl⟩ := h
        subst ha
        simp [hl, outContribL, catMap, hf]
      · simp [h]

theorem count_inAt_foldIncludes (p2f : String → List Nat) (i : Nat) (L : List String)
    (fs : List PFile) (b x : Nat) :
    (inAt (L.foldl (fun acc inc => resolveInclude p2f acc i inc) fs) b).count x =
      (inAt fs b).count x +
        if b < fs.length ∧ x = i then (outContribL p2f fs i L).count b else 0 := by
  induction L generalizing fs with
  | nil => simp [outContribL, catMap]
  | cons inc rest ih =>
    rw [List.foldl_cons, ih, length_resolveInclude,
      outContribL_congr p2f (resolveInclude p2f fs i inc) fs
        (fun a => compAt_resolveInclude p2f fs i inc a) i rest]
    rw [resolveInclude_eq]
    by_cases hf : fires p2f fs i inc
    · rw [if_pos hf, count_inAt_addEdges]
      by_cases h : b < fs.length ∧ x = i
      · simp [h, outContribL, catMap, hf, List.count_append]
        omega
      · simp [h]
    · rw [if_neg hf]
      by_cases h : b < fs.length ∧ x = i
      · simp [h, outContribL, catMap, hf]
      · simp [h]

theorem resolveFile_eq (p2f : String → List Nat) (fs : List PFile) (i : Nat) :
    resolveFile p2f fs i =
      (includesAt fs i).foldl (fun acc inc => resolveInclude p2f acc i inc) fs := rfl

theorem compAt_foldIncludes (p2f : String → List Nat) (i : Nat) (L : List String)
    (fs : List PFile) (a : Nat) :
    compAt (L.foldl (fun acc inc => resolveInclude p2f acc i inc) fs) a = compAt fs a := by
  induction L generalizing fs with
  | nil => rfl
  | cons inc rest ih => rw [List.foldl_cons, ih, compAt_resolveInclude]

theorem includesAt_foldIncludes (p2f : String → List Nat) (i : Nat) (L : List String)
    (fs : List PFile) (a : Nat) :
    includesAt (L.foldl (fun acc inc => resolveInclude p2f acc i inc) fs) a =
      includesAt fs a := by
  induction L generalizing fs with
  | nil => rfl
  | cons inc rest ih => rw [List.foldl_cons, ih, includesAt_resolveInclude]

theorem length_foldIncludes (p2f : String → List Nat) (i : Nat) (L : List String)
    (fs : List PFile) :
    (L.foldl (fun acc inc => resolveInclude p2f acc i inc) fs).length = fs.length := by
  induction L generalizing fs with
  | nil => rfl
  | cons inc rest ih => rw [List.foldl_cons, ih, length_resolveInclude]

theorem map_path_foldIncludes (p2f : String → List Nat) (i : Nat) (L : List String)
    (fs : List PFile) :
    (L.foldl (fun acc inc => resolveInclude p2f acc i inc) fs).map PFile.path =
      fs.map PFile.path := by
  induction L generalizing fs with
  | nil => rfl
  | cons inc rest ih => rw [List.foldl_cons, ih, map_path_resolveInclude]

theorem map_includes_foldIncludes (p2f : String → List Nat) (i : Nat) (L : List String)
    (fs : List PFile) :
    (L.foldl (fun acc inc => resolveInclude p2f acc i inc) fs).map PFile.include_paths =
      fs.map PFile.include_paths := by
  induction L generalizing fs with
  | nil => rfl
  | cons inc rest ih => rw [List.foldl_cons, ih, map_includes_resolveInclude]

theorem compAt_resolveFile (p2f : String → List Nat) (fs : List PFile) (i a : Nat) :
    compAt (resolveFile p2f fs i) a = compAt fs a :=
  compAt_foldIncludes p2f i (includesAt fs i) fs a

theorem includesAt_resolveFile (p2f : String → List Nat) (fs : List PFile) (i a : Nat) :
    includesAt (resolveFile p2f fs i) a = includesAt fs a :=
  includesAt_foldIncludes p2f i (includesAt fs i) fs a

theorem length_resolveFile (p2f : String → List Nat) (fs : List PFile) (i : Nat) :
    (resolveFile p2f fs i).length = fs.length :=
  length_foldIncludes p2f i (includesAt fs i) fs

theorem map_path_resolveFile (p2f : String → List Nat) (fs : List PFile) (i : Nat) :
    (resolveFile p2f fs i).map PFile.path = fs.map PFile.path :=
  map_path_foldIncludes p2f i (includesAt fs i) fs

theorem map_includes_resolveFile (p2f : String → List Nat) (fs : List PFile) (i : Nat) :
    (resolveFile p2f fs i).map PFile.include_paths = fs.map PFile.include_paths :=
  map_includes_foldIncludes p2f i (includesAt fs i) fs

theorem outAt_resolveFile (p2f : String → List Nat) (fs : List PFile) (i a : Nat) :
    outAt (resolveFile p2f fs i) a =
      if a = i ∧ a < fs.length then outAt fs a ++ outContrib p2f fs i
      else outAt fs a := by
  rw [resolveFile_eq, outAt_foldIncludes]
  by_cases h : a = i ∧ a < fs.length
  · rw [if_pos h, if_pos h, outContrib, h.1]
  · rw [if_neg h, if_neg h]

theorem count_inAt_resolveFile (p2f : String → List Nat) (fs : List PFile) (i b x : Nat) :
    (inAt (resolveFile p2f fs i) b).count x =
      (inAt fs b).count x +
        if b < fs.length ∧ x = i then (outContrib p2f fs i).count b else 0 := by
  rw [resolveFile_eq, count_inAt_foldIncludes]
  by_cases h : b < fs.length ∧ x = i
  · rw [if_pos h, if_pos h, outContrib, h.2]
  · rw [if_neg h, if_neg h]

theorem outContrib_resolveFile (p2f : String → List Nat) (fs : List PFile) (i b : Nat) :
    outContrib p2f (resolveFile p2f fs i) b = outContrib p2f fs b := by
  unfold outContrib
  rw [includesAt_resolveFile,
    outContribL_congr p2f (resolveFile p2f fs i) fs (fun a => compAt_resolveFile p2f fs i a)]

theorem outAt_foldFiles (p2f : String → List Nat) :
    ∀ (K : List Nat), K.Nodup → ∀ (fs : List PFile) (a : Nat),
    outAt (K.foldl (fun acc i => resolveFile p2f acc i) fs) a =
      if a ∈ K ∧ a < fs.length then outAt fs a ++ outContrib p2f fs a
      else outAt fs a := by
  intro K
  induction K with
  | nil =>
    intro _ fs a
    simp
  | cons i rest ih =>
    intro hK fs a
    obtain ⟨hnotin, hnd⟩ := List.nodup_cons.mp hK
    rw [List.foldl_cons, ih hnd, length_resolveFile, outContrib_resolveFile,
      outAt_resolveFile]
    by_cases hai : a = i
    · subst hai
      have hmem : a ∉ rest := hnotin
      by_cases hl : a < fs.length
      · simp [hmem, hl]
      · simp [hmem, hl]
    · by_cases hmem : a ∈ rest
      · by_cases hl : a < fs.length
        · simp [hai, hmem, hl]
        · simp [hai, hmem, hl]
      · simp [hai, hmem]

theorem count_inAt_foldFiles (p2f : String → List Nat) :
    ∀ (K : List Nat), K.Nodup → ∀ (fs : List PFile) (b x : Nat),
    (inAt (K.foldl (fun acc i => resolveFile p2f acc i) fs) b).count x =
      (inAt fs b).count x +
        if b < fs.length ∧ x ∈ K then (outContrib p2f fs x).count b else 0 := by
  intro K
  induction K with
  | nil =>
    intro _ fs b x
    simp
  | cons i rest ih =>
    intro hK fs b x
    obtain ⟨hnotin, hnd⟩ := List.nodup_cons.mp hK
    rw [List.foldl_cons, ih hnd, length_resolveFile, outContrib_resolveFile,
      count_inAt_resolveFile]
    by_cases hl : b < fs.length
    · by_cases hxi : x = i
      · subst hxi
        have hmem : x ∉ rest := hnotin
        simp [hl, hmem]
      · by_cases hmem : x ∈ rest
        · simp [hl, hxi, hmem]
        · simp [hl, hxi, hmem]
    · simp [hl]

theorem compAt_foldFiles (p2f : String → List Nat) (K : List Nat) (fs : List PFile)
    (a : Nat) :
    compAt (K.foldl (fun acc i => resolveFile p2f acc i) fs) a = compAt fs a := by
  induction K generalizing fs with
  | nil => rfl
  | cons i rest ih => rw [List.foldl_cons, ih, compAt_resolveFile]

theorem includesAt_foldFiles (p2f : String → List Nat) (K : List Nat) (fs : List PFile)
    (a : Nat) :
    includesAt (K.foldl (fun acc i => resolveFile p2f acc i) fs) a = includesAt fs a := by
  induction K generalizing fs with
  | nil => rfl
  | cons i rest ih => rw [List.foldl_cons, ih, includesAt_resolveFile]

theorem length_foldFiles (p2f : String → List Nat) (K : List Nat) (fs : List PFile) :
    (K.foldl (fun acc i => resolveFile p2f acc i) fs).length = fs.length := by
  induction K generalizing fs with
  | nil => rfl
  | cons i rest ih => rw [List.foldl_cons, ih, length_resolveFile]

theorem map_path_foldFiles (p2f : String → List Nat) (K : List Nat) (fs : List PFile) :
    (K.foldl (fun acc i => resolveFile p2f acc i) fs).map PFile.path = fs.map PFile.path := by
  induction K generalizing fs with
  | nil => rfl
  | cons i rest ih => rw [List.foldl_cons, ih, map_path_resolveFile]

theorem map_includes_foldFiles (p2f : String → List Nat) (K : List Nat) (fs : List PFile) :
    (K.foldl (fun acc i => resolveFile p2f acc i) fs).map PFile.include_paths =
      fs.map PFile.include_paths := by
  induction K generalizing fs with
  | nil => rfl
  | cons i rest ih => rw [List.foldl_cons, ih, map_includes_resolveFile]

theorem components_generate (p : Project) :
    (generate_file_deps p).components = p.components := rfl

theorem outAt_generate (p : Project) (a : Nat) :
    outAt (generate_file_deps p).files a =
      if a < p.files.length then
        outAt p.files a ++ outContrib (pathToFiles p.files) p.files a
      else outAt p.files a := by
  show outAt ((List.range p.files.length).foldl
    (fun acc i => resolveFile (pathToFiles p.files) acc i) p.files) a = _
  rw [outAt_foldFiles (pathToFiles p.files) (List.range p.files.length)
    (List.nodup_range _)]
  simp [List.mem_range, and_self]

theorem count_inAt_generate (p : Project) (b x : Nat) :
    (inAt (generate_file_deps p).files b).count x =
      (inAt p.files b).count x +
        if b < p.files.length ∧ x < p.files.length then
          (outContrib (pathToFiles p.files) p.files x).count b
        else 0 := by
  show (inAt ((List.range p.files.length).foldl
    (fun acc i => resolveFile (pathToFiles p.files) acc i) p.files) b).count x = _
  rw [count_inAt_foldFiles (pathToFiles p.files) (List.range p.files.length)
    (List.nodup_range _)]
  simp [List.mem_range]

theorem compAt_generate (p : Project) (a : Nat) :
    compAt (generate_file_deps p).files a = compAt p.files a :=
  compAt_foldFiles (pathToFiles p.files) (List.range p.files.length) p.files a

theorem includesAt_generate (p : Project) (a : Nat) :
    includesAt (generate_file_deps p).files a = includesAt p.files a :=
  includesAt_foldFiles (pathToFiles p.files) (List.range p.files.length) p.files a

theorem length_generate (p : Project) :
    (generate_file_deps p).files.length = p.files.length :=
  length_foldFiles (pathToFiles p.files) (List.range p.files.length) p.files

theorem map_path_generate (p : Project) :
    (generate_file_deps p).files.map PFile.path = p.files.map PFile.path :=
  map_path_foldFiles (pathToFiles p.files) (List.range p.files.length) p.files

theorem map_includes_generate (p : Project) :
    (generate_file_deps p).files.map PFile.include_paths =
      p.files.map PFile.include_paths :=
  map_includes_foldFiles (pathToFiles p.files) (List.range p.files.length) p.files

/-! ## Lemmas on `catMap` and the `path_to_files` index -/

theorem mem_catMap (f : α → List β) (l : List α) (b : β) :
    b ∈ catMap f l ↔ ∃ a ∈ l, b ∈ f a := by
  induction l with
  | nil => simp [catMap]
  | cons a rest ih => simp [catMap, ih]

theorem count_catMap_append [BEq β] (f : α → List β) (l₁ l₂ : List α) (b : β) :
    (catMap f (l₁ ++ l₂)).count b = (catMap f l₁).count b + (catMap f l₂).count b := by
  induction l₁ with
  | nil => simp [catMap]
  | cons a rest ih =>
    simp [catMap, List.count_append, ih]
    omega

theorem mem_pathToFilesFrom :
    ∀ (fs : List PFile) (k : Nat) (s : String) (j : Nat),
    j ∈ pathToFilesFrom k fs s → k ≤ j ∧ j < k + fs.length := by
  intro fs
  induction fs with
  | nil =>
    intro k s j h
    simp [pathToFilesFrom] at h
  | cons f rest ih =>
    intro k s j h
    unfold pathToFilesFrom at h
    rcases List.mem_append.mp h with h1 | h2
    · by_cases hc : s ∈ suffixes f.path
      · rw [if_pos hc] at h1
        simp at h1
        subst h1
        simp only [List.length_cons]
        omega
      · rw [if_neg hc] at h1
        simp at h1
    · have hb := ih (k+1) s j h2
      simp only [List.length_cons]
      omega

theorem nodup_pathToFilesFrom :
    ∀ (fs : List PFile) (k : Nat) (s : String), (pathToFilesFrom k fs s).Nodup := by
  intro fs
  induction fs with
  | nil =>
    intro k s
    simp [pathToFilesFrom]
  | cons f rest ih =>
    intro k s
    unfold pathToFilesFrom
    by_cases hc : s ∈ suffixes f.path
    · rw [if_pos hc]
      simp only [List.singleton_append]
      refine List.nodup_cons.mpr ⟨?_, ih (k+1) s⟩
      intro hmem
      have hb := mem_pathToFilesFrom rest (k+1) s k hmem
      omega
    · rw [if_neg hc]
      simpa using ih (k+1) s

theorem pathToFilesFrom_congr :
    ∀ (fs₁ fs₂ : List PFile), fs₁.map PFile.path = fs₂.map PFile.path →
    ∀ (k : Nat) (s : String), pathToFilesFrom k fs₁ s = pathToFilesFrom k fs₂ s := by
  intro fs₁
  induction fs₁ with
  | nil =>
    intro fs₂ h k s
    cases fs₂ with
    | nil => rfl
    | cons g rest₂ => simp at h
  | cons f rest ih =>
    intro fs₂ h k s
    cases fs₂ with
    | nil => simp at h
    | cons g rest₂ =>
      simp only [List.map_cons, List.cons.injEq] at h
      unfold pathToFilesFrom
      rw [h.1, ih rest₂ h.2 (k+1) s]

theorem mem_pathToFiles_lt (fs : List PFile) (s : String) (j : Nat)
    (h : j ∈ pathToFiles fs s) : j < fs.length := by
  have hb := mem_pathToFilesFrom fs 0 s j h
  omega

theorem nodup_pathToFiles (fs : List PFile) (s : String) : (pathToFiles fs s).Nodup :=
  nodup_pathToFilesFrom fs 0 s

theorem pathToFiles_congr (fs₁ fs₂ : List PFile)
    (h : fs₁.map PFile.path = fs₂.map PFile.path) :
    pathToFiles fs₁ = pathToFiles fs₂ := by
  funext s
  exact pathToFilesFrom_congr fs₁ fs₂ h 0 s

theorem count_pathToFiles_of_mem (fs : List PFile) (s : String) (j : Nat)
    (h : j ∈ pathToFiles fs s) : (pathToFiles fs s).count j = 1 :=
  List.count_eq_one_of_mem (nodup_pathToFiles fs s) h

/-! ## Lemmas on the assignment pass -/

theorem getElem?_map_modifyIdx (proj : α → β) (g : α → α)
    (h : ∀ x, proj (g x) = proj x) (l : List α) (n a : Nat) :
    ((modifyIdx l n g)[a]?).map proj = (l[a]?).map proj := by
  rw [getElem?_modifyIdx]
  split
  · cases l[a]? <;> simp [h]
  · rfl

theorem assignOne_none (p : Project) (k : Nat) (h : ownerOf p k = none) :
    assignOne p k = p := by
  simp [assignOne, h]

theorem ownerOf_lt_files (p : Project) (i j : Nat) (h : ownerOf p i = some j) :
    i < p.files.length := by
  unfold ownerOf at h
  cases hp : pathAt p.files i with
  | none => rw [hp] at h; cases h
  | some pa =>
    by_contra hlt
    have hnone : p.files[i]? = none := List.getElem?_eq_none (by omega)
    unfold pathAt at hp
    rw [hnone] at hp
    cases hp

theorem firstIdx_lt :
    ∀ (l : List Component) (q : Component → Bool) (j : Nat),
    firstIdx q l = some j → j < l.length := by
  intro l
  induction l with
  | nil =>
    intro q j h
    cases h
  | cons c rest ih =>
    intro q j h
    unfold firstIdx at h
    by_cases hq : q c
    · rw [if_pos hq] at h
      cases h
      simp
    · rw [if_neg hq] at h
      cases hr : firstIdx q rest with
      | none => rw [hr] at h; cases h
      | some j' =>
        rw [hr] at h
        simp at h
        have := ih q j' hr
        simp
        omega

theorem firstSome_some :
    ∀ (l : List String) (f : String → Option Nat) (j : Nat),
    firstSome f l = some j → ∃ a ∈ l, f a = some j := by
  intro l
  induction l with
  | nil =>
    intro f j h
    cases h
  | cons a rest ih =>
    intro f j h
    unfold firstSome at h
    cases hf : f a with
    | some j' =>
      rw [hf] at h
      cases h
      exact ⟨a, List.mem_cons_self a rest, hf⟩
    | none =>
      rw [hf] at h
      obtain ⟨b, hb, hfb⟩ := ih f j h
      exact ⟨b, List.mem_cons_of_mem a hb, hfb⟩

theorem specOwner_lt (comps : List Component) (pa : String) (j : Nat)
    (h : specOwner comps pa = some j) : j < comps.length := by
  unfold specOwner at h
  obtain ⟨cand, _, hidx⟩ := firstSome_some (ancestors pa) _ j h
  exact firstIdx_lt comps _ j hidx

theorem ownerOf_lt_comps (p : Project) (i j : Nat) (h : ownerOf p i = some j) :
    j < p.components.length := by
  unfold ownerOf at h
  cases hp : pathAt p.files i with
  | none => rw [hp] at h; cases h
  | some pa =>
    rw [hp] at h
    exact specOwner_lt p.components pa j h

theorem pathAt_assignOne (p : Project) (k a : Nat) :
    pathAt (assignOne p k).files a = pathAt p.files a := by
  cases h : ownerOf p k with
  | none => rw [assignOne_none p k h]
  | some j =>
    simp only [assignOne, h]
    exact getElem?_map_modifyIdx PFile.path (fun f => { f with component := some j })
      (fun f => rfl) p.files k a

theorem outAt_assignOne (p : Project) (k a : Nat) :
    outAt (assignOne p k).files a = outAt p.files a := by
  cases h : ownerOf p k with
  | none => rw [assignOne_none p k h]
  | some j =>
    simp only [assignOne, h]
    exact look_modifyIdx_preserved PFile.outgoing_links []
      (fun f => { f with component := some j }) (fun f => rfl) p.files k a

theorem inAt_assignOne (p : Project) (k a : Nat) :
    inAt (assignOne p k).files a = inAt p.files a := by
  cases h : ownerOf p k with
  | none => rw [assignOne_none p k h]
  | some j =>
    simp only [assignOne, h]
    exact look_modifyIdx_preserved PFile.incoming_links []
      (fun f => { f with component := some j }) (fun f => rfl) p.files k a

theorem includesAt_assignOne (p : Project) (k a : Nat) :
    includesAt (assignOne p k).files a = includesAt p.files a := by
  cases h : ownerOf p k with
  | none => rw [assignOne_none p k h]
  | some j =>
    simp only [assignOne, h]
    exact look_modifyIdx_preserved PFile.include_paths []
      (fun f => { f with component := some j }) (fun f => rfl) p.files k a

theorem map_path_assignOne (p : Project) (k : Nat) :
    (assignOne p k).files.map PFile.path = p.files.map PFile.path := by
  cases h : ownerOf p k with
  | none => rw [assignOne_none p k h]
  | some j =>
    simp only [assignOne, h]
    exact map_modifyIdx_preserved PFile.path (fun f => { f with component := some j })
      (fun f => rfl) p.files k

theorem map_includes_assignOne (p : Project) (k : Nat) :
    (assignOne p k).files.map PFile.include_paths = p.files.map PFile.include_paths := by
  cases h : ownerOf p k with
  | none => rw [assignOne_none p k h]
  | some j =>
    simp only [assignOne, h]
    exact map_modifyIdx_preserved PFile.include_paths
      (fun f => { f with component := some j }) (fun f => rfl) p.files k

theorem length_files_assignOne (p : Project) (k : Nat) :
    (assignOne p k).files.length = p.files.length := by
  cases h : ownerOf p k with
  | none => rw [assignOne_none p k h]
  | some j =>
    simp only [assignOne, h]
    exact length_modifyIdx p.files k _

theorem comps_map_path_assignOne (p : Project) (k : Nat) :
    (assignOne p k).components.map Component.path = p.components.map Component.path := by
  cases h : ownerOf p k with
  | none => rw [assignOne_none p k h]
  | some j =>
    simp only [assignOne, h]
    exact map_modifyIdx_preserved Component.path
      (fun c => { c with files := c.files ++ [k] }) (fun c => rfl) p.components j

theorem length_comps_assignOne (p : Project) (k : Nat) :
    (assignOne p k).components.length = p.components.length := by
  cases h : ownerOf p k with
  | none => rw [assignOne_none p k h]
  | some j =>
    simp only [assignOne, h]
    exact length_modifyIdx p.components j _

theorem firstIdx_congr :
    ∀ (comps₁ comps₂ : List Component),
    comps₁.map Component.path = comps₂.map Component.path → ∀ (cand : String),
    firstIdx (fun c => c.path = cand) comps₁ = firstIdx (fun c => c.path = cand) comps₂ := by
  intro comps₁
  induction comps₁ with
  | nil =>
    intro comps₂ h cand
    cases comps₂ with
    | nil => rfl
    | cons g rest₂ => simp at h
  | cons c rest ih =>
    intro comps₂ h cand
    cases comps₂ with
    | nil => simp at h
    | cons g rest₂ =>
      simp only [List.map_cons, List.cons.injEq] at h
      unfold firstIdx
      rw [h.1, ih rest₂ h.2 cand]

theorem specOwner_congr (comps₁ comps₂ : List Component)
    (h : comps₁.map Component.path = comps₂.map Component.path) (pa : String) :
    specOwner comps₁ pa = specOwner comps₂ pa := by
  unfold specOwner
  have hfun : (fun cand => firstIdx (fun c => c.path = cand) comps₁) =
      (fun cand => firstIdx (fun c => c.path = cand) comps₂) := by
    funext cand
    exact firstIdx_congr comps₁ comps₂ h cand
  rw [hfun]

theorem ownerOf_assignOne (p : Project) (k i : Nat) :
    ownerOf (assignOne p k) i = ownerOf p i := by
  unfold ownerOf
  rw [pathAt_assignOne]
  cases pathAt p.files i with
  | none => rfl
  | some pa => exact specOwner_congr _ _ (comps_map_path_assignOne p k) pa

theorem compAt_assignOne (p : Project) (k a : Nat) :
    compAt (assignOne p k).files a =
      if a = k ∧ (ownerOf p k).isSome then ownerOf p k else compAt p.files a := by
  cases h : ownerOf p k with
  | none => rw [assignOne_none p k h]; simp [h]
  | some j =>
    simp only [assignOne, h, Option.isSome_some, and_true]
    unfold compAt
    rw [look_modifyIdx_same]
    by_cases hak : a = k
    · subst hak
      have hlt : a < p.files.length := ownerOf_lt_files p a j h
      rw [List.getElem?_eq_getElem hlt]
      simp
    · simp [hak]

theorem compFilesAt_assignOne (p : Project) (k c : Nat) :
    compFilesAt (assignOne p k) c =
      compFilesAt p c ++ (if ownerOf p k = some c then [k] else []) := by
  cases h : ownerOf p k with
  | none => rw [assignOne_none p k h]; simp [h]
  | some j =>
    simp only [assignOne, h]
    unfold compFilesAt
    rw [getElem?_modifyIdx]
    by_cases hcj : c = j
    · subst hcj
      have hlt : c < p.components.length := ownerOf_lt_comps p k c h
      rw [List.getElem?_eq_getElem hlt]
      simp
    · have : (some j = some c) = False := by
        simp
        intro hjc
        exact hcj hjc.symm
      simp [hcj, this]

theorem compPathAt_assignOne (p : Project) (k c : Nat) :
    compPathAt (assignOne p k) c = compPathAt p c := by
  cases h : ownerOf p k with
  | none => rw [assignOne_none p k h]
  | some j =>
    simp only [assignOne, h]
    unfold compPathAt
    exact congrArg (fun o => o.getD "")
      (getElem?_map_modifyIdx Component.path (fun c => { c with files := c.files ++ [k] })
        (fun c => rfl) p.components j c)

theorem asgContrib_cons (p : Project) (k : Nat) (rest : List Nat) (c : Nat) :
    asgContrib p (k :: rest) c =
      (if ownerOf p k = some c then [k] else []) ++ asgContrib p rest c := rfl

theorem asgContrib_congr :
    ∀ (K : List Nat) (p₁ p₂ : Project), (∀ k, ownerOf p₁ k = ownerOf p₂ k) →
    ∀ (c : Nat), asgContrib p₁ K c = asgContrib p₂ K c := by
  intro K
  induction K with
  | nil =>
    intro p₁ p₂ h c
    rfl
  | cons k rest ih =>
    intro p₁ p₂ h c
    unfold asgContrib catMap
    rw [h k]
    unfold asgContrib at ih
    rw [ih p₁ p₂ h c]

theorem compAt_assignFold :
    ∀ (K : List Nat) (p : Project) (a : Nat),
    compAt (K.foldl assignOne p).files a =
      if a ∈ K ∧ (ownerOf p a).isSome then ownerOf p a else compAt p.files a := by
  intro K
  induction K with
  | nil =>
    intro p a
    simp
  | cons k rest ih =>
    intro p a
    rw [List.foldl_cons, ih, ownerOf_assignOne, compAt_assignOne]
    by_cases hmem : a ∈ rest
    · by_cases hs : (ownerOf p a).isSome
      · simp [hmem, hs]
      · simp [hmem, hs]
        intro hak hsk
        subst hak
        exact absurd hsk hs
    · by_cases hak : a = k
      · subst hak
        by_cases hs : (ownerOf p a).isSome
        · simp [hmem, hs]
        · simp [hmem, hs]
      · simp [hmem, hak]

theorem compFilesAt_assignFold :
    ∀ (K : List Nat) (p : Project) (c : Nat),
    compFilesAt (K.foldl assignOne p) c = compFilesAt p c ++ asgContrib p K c := by
  intro K
  induction K with
  | nil =>
    intro p c
    simp [asgContrib, catMap]
  | cons k rest ih =>
    intro p c
    rw [List.foldl_cons, ih, compFilesAt_assignOne,
      asgContrib_congr rest (assignOne p k) p (fun i => ownerOf_assignOne p k i) c,
      asgContrib_cons, List.append_assoc]

theorem count_asgContrib :
    ∀ (K : List Nat) (p : Project) (c x : Nat),
    (asgContrib p K c).count x = if ownerOf p x = some c then K.count x else 0 := by
  intro K
  induction K with
  | nil =>
    intro p c x
    simp [asgContrib, catMap]
  | cons k rest ih =>
    intro p c x
    rw [asgContrib_cons, List.count_append, ih p c x]
    by_cases hkx : k = x
    · subst hkx
      by_cases ho : ownerOf p k = some c
      · simp [ho, List.count_cons]
        omega
      · simp [ho, List.count_cons]
    · by_cases ho : ownerOf p k = some c
      · simp [ho, hkx, List.count_cons, List.count_singleton]
      · simp [ho, hkx, List.count_cons]

theorem pathAt_assignFold (K : List Nat) (p : Project) (a : Nat) :
    pathAt (K.foldl assignOne p).files a = pathAt p.files a := by
  induction K generalizing p with
  | nil => rfl
  | cons k rest ih => rw [List.foldl_cons, ih, pathAt_assignOne]

theorem outAt_assignFold (K : List Nat) (p : Project) (a : Nat) :
    outAt (K.foldl assignOne p).files a = outAt p.files a := by
  induction K generalizing p with
  | nil => rfl
  | cons k rest ih => rw [List.foldl_cons, ih, outAt_assignOne]

theorem inAt_assignFold (K : List Nat) (p : Project) (a : Nat) :
    inAt (K.foldl assignOne p).files a = inAt p.files a := by
  induction K generalizing p with
  | nil => rfl
  | cons k rest ih => rw [List.foldl_cons, ih, inAt_assignOne]

theorem includesAt_assignFold (K : List Nat) (p : Project) (a : Nat) :
    includesAt (K.foldl assignOne p).files a = includesAt p.files a := by
  induction K generalizing p with
  | nil => rfl
  | cons k rest ih => rw [List.foldl_cons, ih, includesAt_assignOne]

theorem map_path_assignFold (K : List Nat) (p : Project) :
    (K.foldl assignOne p).files.map PFile.path = p.files.map PFile.path := by
  induction K generalizing p with
  | nil => rfl
  | cons k rest ih => rw [List.foldl_cons, ih, map_path_assignOne]

theorem map_includes_assignFold (K : List Nat) (p : Project) :
    (K.foldl assignOne p).files.map PFile.include_paths =
      p.files.map PFile.include_paths := by
  induction K generalizing p with
  | nil => rfl
  | cons k rest ih => rw [List.foldl_cons, ih, map_includes_assignOne]

theorem length_files_assignFold (K : List Nat) (p : Project) :
    (K.foldl assignOne p).files.length = p.files.length := by
  induction K generalizing p with
  | nil => rfl
  | cons k rest ih => rw [List.foldl_cons, ih, length_files_assignOne]

theorem comps_map_path_assignFold (K : List Nat) (p : Project) :
    (K.foldl assignOne p).components.map Component.path =
      p.components.map Component.path := by
  induction K generalizing p with
  | nil => rfl
  | cons k rest ih => rw [List.foldl_cons, ih, comps_map_path_assignOne]

theorem ownerOf_assignFold (K : List Nat) (p : Project) (i : Nat) :
    ownerOf (K.foldl assignOne p) i = ownerOf p i := by
  induction K generalizing p with
  | nil => rfl
  | cons k rest ih => rw [List.foldl_cons, ih, ownerOf_assignOne]

theorem compPathAt_assignFold (K : List Nat) (p : Project) (c : Nat) :
    compPathAt (K.foldl assignOne p) c = compPathAt p c := by
  induction K generalizing p with
  | nil => rfl
  | cons k rest ih => rw [List.foldl_cons, ih, compPathAt_assignOne]

/-! ## The root component candidate always closes the probe sequence -/

theorem empty_mem_initsSeg : ∀ (L : List String), [] ∈ initsSeg L := by
  intro L
  cases L with
  | nil => simp [initsSeg]
  | cons a rest => simp [initsSeg]

theorem empty_mem_ancestors (pa : String) : "" ∈ ancestors pa := by
  unfold ancestors
  rw [List.mem_map]
  refine ⟨[], ?_, rfl⟩
  rw [List.mem_reverse]
  exact empty_mem_initsSeg _

theorem firstIdx_isSome_of_exists :
    ∀ (comps : List Component) (cand : String),
    (∃ c ∈ comps, c.path = cand) → (firstIdx (fun c => c.path = cand) comps).isSome := by
  intro comps
  induction comps with
  | nil =>
    intro cand h
    obtain ⟨c, hc, _⟩ := h
    cases hc
  | cons c rest ih =>
    intro cand h
    unfold firstIdx
    by_cases hq : c.path = cand
    · simp [hq]
    · obtain ⟨c', hc', hp'⟩ := h
      rcases List.mem_cons.mp hc' with hh | ht
      · subst hh
        exact absurd hp' hq
      · have := ih cand ⟨c', ht, hp'⟩
        simp [hq]
        cases hr : firstIdx (fun c => decide (c.path = cand)) rest with
        | none => rw [hr] at this; cases this
        | some j => simp

theorem firstSome_isSome_of_mem :
    ∀ (l : List String) (f : String → Option Nat) (a : String),
    a ∈ l → (f a).isSome → (firstSome f l).isSome := by
  intro l
  induction l with
  | nil =>
    intro f a h _
    cases h
  | cons b rest ih =>
    intro f a h hs
    unfold firstSome
    cases hb : f b with
    | some j => simp
    | none =>
      rcases List.mem_cons.mp h with hh | ht
      · subst hh
        rw [hb] at hs
        cases hs
      · exact ih f a ht hs

theorem specOwner_isSome_of_root (comps : List Component) (pa : String)
    (h : ∃ c ∈ comps, c.path = "") : (specOwner comps pa).isSome := by
  unfold specOwner
  exact firstSome_isSome_of_mem (ancestors pa) _ "" (empty_mem_ancestors pa)
    (firstIdx_isSome_of_exists comps "" h)

theorem sameComp_of_self_mem (fs : List PFile) (i : Nat) (deps : List Nat)
    (h : i ∈ deps) : sameComp fs i deps = true := by
  unfold sameComp
  rw [List.any_eq_true]
  exact ⟨i, h, by simp⟩

/-! ## Lemmas on the aggregation buckets and the sorted report -/

theorem bucketGet_nil (k : Nat) : bucketGet [] k = [] := rfl

theorem catMap_nil (f : α → List β) : catMap f [] = [] := rfl

theorem catMap_cons (f : α → List β) (a : α) (l : List α) :
    catMap f (a :: l) = f a ++ catMap f l := rfl

theorem bucketStep_none (sel : Nat → Option (Nat × (Nat × Nat)))
    (m : List (Nat × List (Nat × Nat))) (x : Nat) (h : sel x = none) :
    bucketStep sel m x = m := by
  simp [bucketStep, h]

theorem bucketStep_some (sel : Nat → Option (Nat × (Nat × Nat)))
    (m : List (Nat × List (Nat × Nat))) (x : Nat) (ke : Nat × (Nat × Nat))
    (h : sel x = some ke) : bucketStep sel m x = bucketAdd m ke.1 ke.2 := by
  simp [bucketStep, h]

theorem selPick_none (sel : Nat → Option (Nat × (Nat × Nat))) (k x : Nat)
    (h : sel x = none) : selPick sel k x = [] := by
  simp [selPick, h]

theorem selPick_some (sel : Nat → Option (Nat × (Nat × Nat))) (k x : Nat)
    (ke : Nat × (Nat × Nat)) (h : sel x = some ke) :
    selPick sel k x = if ke.1 = k then [ke.2] else [] := by
  simp [selPick, h]

theorem bucketGet_bucketAdd (m : List (Nat × List (Nat × Nat))) (k k' : Nat)
    (e : Nat × Nat) :
    bucketGet (bucketAdd m k e) k' = bucketGet m k' ++ (if k' = k then [e] else []) := by
  induction m with
  | nil =>
    by_cases hk : k' = k
    · subst hk
      simp [bucketAdd, bucketGet]
    · have h2 : ¬k = k' := fun h => hk h.symm
      simp [bucketAdd, bucketGet, hk, h2]
  | cons kv rest ih =>
    obtain ⟨k₀, es⟩ := kv
    by_cases h0 : k₀ = k
    · subst h0
      by_cases h' : k₀ = k'
      · subst h'
        simp [bucketAdd, bucketGet]
      · have h2 : ¬k' = k₀ := fun h => h' h.symm
        simp [bucketAdd, bucketGet, h', h2]
    · by_cases h' : k₀ = k'
      · subst h'
        simp [bucketAdd, bucketGet, h0]
      · simp [bucketAdd, bucketGet, h0, h', ih]

theorem bucketGet_foldSteps (sel : Nat → Option (Nat × (Nat × Nat))) :
    ∀ (L : List Nat) (m : List (Nat × List (Nat × Nat))) (k : Nat),
    bucketGet (L.foldl (bucketStep sel) m) k =
      bucketGet m k ++ catMap (selPick sel k) L := by
  intro L
  induction L with
  | nil =>
    intro m k
    simp [catMap]
  | cons x rest ih =>
    intro m k
    rw [List.foldl_cons, ih, catMap_cons]
    cases hy : sel x with
    | none =>
      rw [bucketStep_none sel m x hy, selPick_none sel k x hy]
      simp
    | some ke =>
      rw [bucketStep_some sel m x ke hy, bucketGet_bucketAdd,
        selPick_some sel k x ke hy, List.append_assoc]
      by_cases hk : ke.1 = k
      · simp [hk]
      · have h2 : ¬k = ke.1 := fun h => hk h.symm
        simp [hk, h2]

theorem bucketGet_linked_outgoing (p : Project) (c k : Nat) :
    bucketGet (linked_outgoing p c) k = outEdgesToComp p c k := by
  unfold linked_outgoing outEdgesToComp
  have aux : ∀ (F : List Nat) (m : List (Nat × List (Nat × Nat))),
      bucketGet (F.foldl
        (fun m f => (outAt p.files f).foldl (bucketStep (outSel p c f)) m) m) k =
      bucketGet m k ++
        catMap (fun f => catMap (selPick (outSel p c f) k) (outAt p.files f)) F := by
    intro F
    induction F with
    | nil =>
      intro m
      simp [catMap]
    | cons f rest ih =>
      intro m
      rw [List.foldl_cons, ih, bucketGet_foldSteps, catMap_cons, List.append_assoc]
  rw [aux (compFilesAt p c) []]
  rfl

theorem bucketGet_linked_incoming (p : Project) (c k : Nat) :
    bucketGet (linked_incoming p c) k = inEdgesToComp p c k := by
  unfold linked_incoming inEdgesToComp
  have aux : ∀ (F : List Nat) (m : List (Nat × List (Nat × Nat))),
      bucketGet (F.foldl
        (fun m f => (inAt p.files f).foldl (bucketStep (inSel p c f)) m) m) k =
      bucketGet m k ++
        catMap (fun f => catMap (selPick (inSel p c f) k) (inAt p.files f)) F := by
    intro F
    induction F with
    | nil =>
      intro m
      simp [catMap]
    | cons f rest ih =>
      intro m
      rw [List.foldl_cons, ih, bucketGet_foldSteps, catMap_cons, List.append_assoc]
  rw [aux (compFilesAt p c) []]
  rfl

theorem mem_insertDep (p : Project) (d : Dependency) :
    ∀ (l : List Dependency) (x : Dependency), x ∈ insertDep p d l → x = d ∨ x ∈ l := by
  intro l
  induction l with
  | nil =>
    intro x hx
    unfold insertDep at hx
    simp at hx
    exact Or.inl hx
  | cons e rest ih =>
    intro x hx
    unfold insertDep at hx
    by_cases hle : depLE p d e
    · rw [if_pos hle] at hx
      rcases List.mem_cons.mp hx with h | h
      · exact Or.inl h
      · exact Or.inr h
    · rw [if_neg hle] at hx
      rcases List.mem_cons.mp hx with h | h
      · exact Or.inr (by rw [h]; exact List.mem_cons_self e rest)
      · rcases ih x h with h' | h'
        · exact Or.inl h'
        · exact Or.inr (List.mem_cons_of_mem e h')

theorem depLE_total (p : Project) (a b : Dependency) (h : ¬depLE p a b = true) :
    depLE p b a = true := by
  unfold depLE at h ⊢
  rw [decide_eq_true_iff] at h ⊢
  exact le_of_not_le h

theorem pairwise_insertDep (p : Project) (d : Dependency) :
    ∀ (l : List Dependency), l.Pairwise (fun a b => depLE p a b = true) →
    (insertDep p d l).Pairwise (fun a b => depLE p a b = true) := by
  intro l
  induction l with
  | nil =>
    intro _
    simp [insertDep]
  | cons e rest ih =>
    intro h
    obtain ⟨h₁, h₂⟩ := List.pairwise_cons.mp h
    unfold insertDep
    by_cases hle : depLE p d e
    · rw [if_pos hle]
      refine List.pairwise_cons.mpr ⟨?_, h⟩
      intro x hx
      rcases List.mem_cons.mp hx with hh | ht
      · rw [hh]
        exact hle
      · unfold depLE at hle ⊢
        rw [decide_eq_true_iff] at hle ⊢
        exact le_trans hle (by
          have := h₁ x ht
          unfold depLE at this
          rw [decide_eq_true_iff] at this
          exact this)
    · rw [if_neg hle]
      refine List.pairwise_cons.mpr ⟨?_, ih h₂⟩
      intro x hx
      rcases mem_insertDep p d rest x hx with hh | ht
      · rw [hh]
        exact depLE_total p d e hle
      · exact h₁ x ht

theorem sortDeps_pairwise (p : Project) (l : List Dependency) :
    (sortDeps p l).Pairwise (fun a b => depLE p a b = true) := by
  unfold sortDeps
  induction l with
  | nil => simp
  | cons d rest ih => exact pairwise_insertDep p d _ ih

theorem self_not_mem_outContrib (fs : List PFile) (i : Nat) :
    i ∉ outContrib (pathToFiles fs) fs i := by
  unfold outContrib outContribL
  intro hmem
  obtain ⟨inc, _, hin⟩ := (mem_catMap _ _ _).mp hmem
  by_cases hf : fires (pathToFiles fs) fs i inc
  · rw [if_pos hf] at hin
    have hsc : sameComp fs i (pathToFiles fs inc) = true :=
      sameComp_of_self_mem fs i (pathToFiles fs inc) hin
    unfold fires at hf
    rw [hsc] at hf
    simp at hf
  · rw [if_neg hf] at hin
    simp at hin

/-! ## Remaining helper lemmas -/

theorem assign_eq_fold (p : Project) :
    assign_files_to_components p = (List.range p.files.length).foldl assignOne p := rfl

theorem outAt_oor (fs : List PFile) (i : Nat) (h : ¬i < fs.length) :
    outAt fs i = [] := by
  unfold outAt look
  rw [List.getElem?_eq_none (by omega)]
  rfl

theorem inAt_oor (fs : List PFile) (i : Nat) (h : ¬i < fs.length) :
    inAt fs i = [] := by
  unfold inAt look
  rw [List.getElem?_eq_none (by omega)]
  rfl

theorem outAt_mkProject (input : List (String × List String)) (comps : List String)
    (i : Nat) : outAt (mkProject input comps).files i = [] := by
  unfold mkProject outAt look
  rw [List.getElem?_map]
  cases input[i]? <;> rfl

theorem inAt_mkProject (input : List (String × List String)) (comps : List String)
    (i : Nat) : inAt (mkProject input comps).files i = [] := by
  unfold mkProject inAt look
  rw [List.getElem?_map]
  cases input[i]? <;> rfl

theorem compFilesAt_mkProject (input : List (String × List String)) (comps : List String)
    (c : Nat) : compFilesAt (mkProject input comps) c = [] := by
  unfold mkProject compFilesAt
  rw [List.getElem?_map]
  cases comps[c]? <;> rfl

theorem mem_outContrib_lt (fs : List PFile) (i j : Nat)
    (h : j ∈ outContrib (pathToFiles fs) fs i) : j < fs.length := by
  unfold outContrib outContribL at h
  obtain ⟨inc, _, hin⟩ := (mem_catMap _ _ _).mp h
  by_cases hf : fires (pathToFiles fs) fs i inc
  · rw [if_pos hf] at hin
    exact mem_pathToFiles_lt fs inc j hin
  · rw [if_neg hf] at hin
    cases hin

theorem count_outContrib_eq_countP (fs : List PFile) (i j : Nat) :
    (outContrib (pathToFiles fs) fs i).count j =
      (includesAt fs i).countP
        (fun s => fires (pathToFiles fs) fs i s && decide (j ∈ pathToFiles fs s)) := by
  unfold outContrib outContribL
  generalize includesAt fs i = L
  induction L with
  | nil => simp [catMap]
  | cons s rest ih =>
    rw [catMap_cons, List.count_append, ih, List.countP_cons]
    by_cases hf : fires (pathToFiles fs) fs i s
    · by_cases hm : j ∈ pathToFiles fs s
      · rw [if_pos hf]
        rw [count_pathToFiles_of_mem fs s j hm]
        simp [hf, hm]
        omega
      · rw [if_pos hf]
        rw [List.count_eq_zero.mpr hm]
        simp [hf, hm]
    · rw [if_neg hf]
      simp [hf]

theorem ownerOf_congr (p₁ p₂ : Project)
    (hf : p₁.files.map PFile.path = p₂.files.map PFile.path)
    (hc : p₁.components.map Component.path = p₂.components.map Component.path)
    (i : Nat) : ownerOf p₁ i = ownerOf p₂ i := by
  unfold ownerOf
  have hp : pathAt p₁.files i = pathAt p₂.files i := by
    unfold pathAt
    have h1 : (p₁.files.map PFile.path)[i]? = (p₂.files.map PFile.path)[i]? := by rw [hf]
    simpa [List.getElem?_map] using h1
  rw [hp]
  cases pathAt p₂.files i with
  | none => rfl
  | some pa => exact specOwner_congr _ _ hc pa

theorem runPasses_twice_aux (P0 : Project)
    (hout0 : ∀ i, outAt P0.files i = [])
    (hin0 : ∀ i, inAt P0.files i = [])
    (hcf0 : ∀ c, compFilesAt P0 c = []) :
    (∀ i, outAt (runPasses (runPasses P0)).files i =
      outAt (runPasses P0).files i ++ outAt (runPasses P0).files i) ∧
    (∀ b x, (inAt (runPasses (runPasses P0)).files b).count x =
      2 * (inAt (runPasses P0).files b).count x) ∧
    (∀ c, compFilesAt (runPasses (runPasses P0)) c =
      compFilesAt (runPasses P0) c ++ compFilesAt (runPasses P0) c) ∧
    (∀ i, compAt (runPasses (runPasses P0)).files i =
      compAt (runPasses P0).files i) := by
  unfold runPasses
  set A1 := assign_files_to_components P0 with hA1
  set R1 := generate_file_deps A1 with hR1
  set A2 := assign_files_to_components R1 with hA2
  set R2 := generate_file_deps A2 with hR2
  have hA1p : A1.files.map PFile.path = P0.files.map PFile.path := by
    rw [hA1, assign_eq_fold]
    exact map_path_assignFold _ _
  have hR1p : R1.files.map PFile.path = P0.files.map PFile.path := by
    rw [hR1, map_path_generate]
    exact hA1p
  have hA2p : A2.files.map PFile.path = P0.files.map PFile.path := by
    rw [hA2, assign_eq_fold, map_path_assignFold]
    exact hR1p
  have hA1i : A1.files.map PFile.include_paths = P0.files.map PFile.include_paths := by
    rw [hA1, assign_eq_fold]
    exact map_includes_assignFold _ _
  have hR1i : R1.files.map PFile.include_paths = P0.files.map PFile.include_paths := by
    rw [hR1, map_includes_generate]
    exact hA1i
  have hA2i : A2.files.map PFile.include_paths = P0.files.map PFile.include_paths := by
    rw [hA2, assign_eq_fold, map_includes_assignFold]
    exact hR1i
  have hA1c : A1.components.map Component.path = P0.components.map Component.path := by
    rw [hA1, assign_eq_fold]
    exact comps_map_path_assignFold _ _
  have hR1c : R1.components.map Component.path = P0.components.map Component.path := by
    rw [hR1, components_generate]
    exact hA1c
  have hn1 : A1.files.length = P0.files.length := by
    rw [hA1, assign_eq_fold]
    exact length_files_assignFold _ _
  have hnR1 : R1.files.length = P0.files.length := by
    rw [hR1, length_generate]
    exact hn1
  have hn2 : A2.files.length = P0.files.length := by
    rw [hA2, assign_eq_fold, length_files_assignFold]
    exact hnR1
  have hnR2 : R2.files.length = P0.files.length := by
    rw [hR2, length_generate]
    exact hn2
  have hOwn : ∀ k, ownerOf R1 k = ownerOf P0 k := fun k =>
    ownerOf_congr R1 P0 hR1p hR1c k
  have hcA : ∀ i, compAt A2.files i = compAt A1.files i := by
    intro i
    rw [hA2, assign_eq_fold, compAt_assignFold, hOwn i]
    have hgen : compAt R1.files i = compAt A1.files i := by
      rw [hR1]
      exact compAt_generate A1 i
    rw [hgen]
    by_cases hcond : i ∈ List.range R1.files.length ∧ (ownerOf P0 i).isSome
    · rw [if_pos hcond, hA1, assign_eq_fold, compAt_assignFold]
      have hm : i ∈ List.range P0.files.length := by
        rw [List.mem_range, ← hnR1]
        exact List.mem_range.mp hcond.1
      rw [if_pos ⟨hm, hcond.2⟩]
    · rw [if_neg hcond]
  have hp2f : pathToFiles A2.files = pathToFiles A1.files :=
    pathToFiles_congr _ _ (hA2p.trans hA1p.symm)
  have hinc : ∀ a, includesAt A2.files a = includesAt A1.files a := fun a =>
    look_eq_of_map_eq PFile.include_paths [] _ _ (hA2i.trans hA1i.symm) a
  have hcontrib : ∀ i, outContrib (pathToFiles A2.files) A2.files i =
      outContrib (pathToFiles A1.files) A1.files i := by
    intro i
    unfold outContrib
    rw [hp2f, hinc i, outContribL_congr (pathToFiles A1.files) A2.files A1.files hcA i]
  have houtA2 : ∀ i, outAt A2.files i = outAt R1.files i := by
    intro i
    rw [hA2, assign_eq_fold]
    exact outAt_assignFold _ _ i
  have hinA2 : ∀ i, inAt A2.files i = inAt R1.files i := by
    intro i
    rw [hA2, assign_eq_fold]
    exact inAt_assignFold _ _ i
  have houtA1 : ∀ i, outAt A1.files i = [] := by
    intro i
    rw [hA1, assign_eq_fold, outAt_assignFold]
    exact hout0 i
  have hinA1 : ∀ i, inAt A1.files i = [] := by
    intro i
    rw [hA1, assign_eq_fold, inAt_assignFold]
    exact hin0 i
  refine ⟨?_, ?_, ?_, ?_⟩
  · intro i
    by_cases hi : i < P0.files.length
    · have hi2 : i < A2.files.length := by rw [hn2]; exact hi
      have hi1 : i < A1.files.length := by rw [hn1]; exact hi
      rw [hR2, outAt_generate, if_pos hi2, houtA2 i, hcontrib i, hR1, outAt_generate,
        if_pos hi1, houtA1 i]
      simp
    · have hi2 : ¬i < R2.files.length := by rw [hnR2]; exact hi
      have hi1 : ¬i < R1.files.length := by rw [hnR1]; exact hi
      rw [outAt_oor R2.files i hi2, outAt_oor R1.files i hi1]
      rfl
  · intro b x
    rw [hR2, count_inAt_generate, hinA2 b, hcontrib x, hn2, hR1, count_inAt_generate,
      hinA1 b, hn1]
    by_cases hc : b < P0.files.length ∧ x < P0.files.length
    · simp [hc]
      omega
    · simp [hc]
  · intro c
    have h2 : compFilesAt R2 c = compFilesAt A2 c := by
      unfold compFilesAt
      rw [hR2, components_generate]
    have h3 : compFilesAt R1 c = compFilesAt A1 c := by
      unfold compFilesAt
      rw [hR1, components_generate]
    rw [h2, hA2, assign_eq_fold, compFilesAt_assignFold,
      asgContrib_congr (List.range R1.files.length) R1 P0 hOwn c, hnR1, h3, hA1,
      assign_eq_fold, compFilesAt_assignFold, hcf0 c]
    simp
  · intro i
    rw [hR2, compAt_generate, hcA i, hR1, compAt_generate]

/-! ## The claims -/

/-- C1: same-component preference — when the raw inclusion string `s` has an
entry in the file index and at least one file registered under `s` shares
the source file's component, the resolver returns the file table unchanged:
no cross-component edge and no edge to the same-component file either. -/
theorem C1_same_component_no_edge (fs : List PFile) (i : Nat) (s : String)
    (h : ∃ j ∈ pathToFiles fs s, compAt fs j = compAt fs i) :
    resolveInclude (pathToFiles fs) fs i s = fs := by
  obtain ⟨j, hj, hc⟩ := h
  unfold resolveInclude
  have hne : ¬(pathToFiles fs s).isEmpty = true := by
    cases hdeps : pathToFiles fs s with
    | nil => rw [hdeps] at hj; cases hj
    | cons a l => simp
  have hsc : sameComp fs i (pathToFiles fs s) = true := by
    unfold sameComp
    rw [List.any_eq_true]
    exact ⟨j, hj, by simp [hc]⟩
  simp [hne, hsc]

/-- Witness for C1 at a concrete state: `a/x.h` (component 1) includes
`"u.h"`, which resolves to both `a/u.h` (component 1) and `b/u.h`
(component 2); the resolver records nothing. -/
theorem C1_same_component_no_edge_witness :
    (∃ j ∈ pathToFiles exC1fs "u.h", compAt exC1fs j = compAt exC1fs 0) ∧
    resolveInclude (pathToFiles exC1fs) exC1fs 0 "u.h" = exC1fs :=
  ⟨⟨1, by decide, by decide⟩,
    C1_same_component_no_edge exC1fs 0 "u.h" ⟨1, by decide, by decide⟩⟩

/-- C2: longest-prefix assignment — the assignment pass records for every
file exactly the owner computed by probing the strict ancestors of its path
from most specific down to `""` and taking the first existing component
(`ownerOf` = `specOwner` over `ancestors`), leaving the file untouched when
no ancestor matches; in particular with components at `""`, `"a"` and
`"a/b"`, the file `a/b/c/d.h` is assigned to the component at `"a/b"`. -/
theorem C2_longest_prefix_assignment :
    (∀ (p : Project) (i : Nat),
      compAt (assign_files_to_components p).files i =
        if (ownerOf p i).isSome then ownerOf p i else compAt p.files i) ∧
    compAt (assign_files_to_components
      (mkProject [("a/b/c/d.h", [])] ["", "a", "a/b"])).files 0 = some 2 ∧
    compPathAt (mkProject [("a/b/c/d.h", [])] ["", "a", "a/b"]) 2 = "a/b" := by
  refine ⟨?_, by decide, by decide⟩
  intro p i
  rw [assign_eq_fold, compAt_assignFold]
  by_cases hs : (ownerOf p i).isSome
  · have hi : i < p.files.length := by
      cases ho : ownerOf p i with
      | none => rw [ho] at hs; cases hs
      | some j => exact ownerOf_lt_files p i j ho
    simp [hs, List.mem_range, hi]
  · simp [hs]

/-- C5: evaluating the assignment pass at a project whose only file matches
no component (there is no component at path `""`): the pass returns the
project unchanged — the file is silently left unassigned with a nil
component reference, and no abort or error report of any kind occurs (the
embedding is total precisely because the code has no error channel here). -/
theorem C5_unassigned_file_silent :
    assign_files_to_components (mkProject [("x.h", [])] []) =
      mkProject [("x.h", [])] [] ∧
    compAt (assign_files_to_components (mkProject [("x.h", [])] [])).files 0 = none := by
  exact ⟨by decide, by decide⟩

/-- C7: malformed-include rejection — an include line with no extractable
delimiter pair, or whose extracted string holds a backslash or `..`,
contributes no inclusion string (so nothing reaches the index lookup) and
exactly one malformed-include diagnostic, emitted iff the class is enabled. -/
theorem C7_malformed_include_rejection (line : String) (warn : Bool)
    (hpre : ("#include".data).isPrefixOf line.data = true)
    (hbad : delimExtract line = none ∨
      ∃ s, delimExtract line = some s ∧
        (s.data.contains '\\' = true ∨ hasDotDot s.data = true)) :
    (extract_includes [line] warn).1 = [] ∧
    (extract_includes [line] warn).2.length = (if warn then 1 else 0) := by
  have hml : ∃ d, extractLine line = LineOut.malformed d := by
    unfold extractLine
    rw [if_pos hpre]
    rcases hbad with hnone | ⟨s, hsome, hsep⟩
    · rw [hnone]
      exact ⟨line, rfl⟩
    · rw [hsome]
      refine ⟨s, ?_⟩
      show (if s.data.contains '\\' = true ∨ hasDotDot s.data = true then
        LineOut.malformed s else LineOut.ok s) = LineOut.malformed s
      rw [if_pos hsep]
  obtain ⟨d, hd⟩ := hml
  cases warn <;> simp [extract_includes, hd]

/-- Witness for C7: the line including `"a\b.h"` (backslash separator), with
the diagnostic class enabled, yields no strings and one diagnostic. -/
theorem C7_malformed_include_rejection_witness :
    (extract_includes ["#include \"a\\b.h\""] true).1 = [] ∧
    (extract_includes ["#include \"a\\b.h\""] true).2.length = 1 := by
  have h := C7_malformed_include_rejection "#include \"a\\b.h\"" true (by decide)
    (Or.inr ⟨"a\\b.h", by decide, Or.inl (by decide)⟩)
  simpa using h

/-- C8: sorted aggregation — for every component, the reported incoming and
outgoing dependency lists are each sorted ascending by the partner
component's path. -/
theorem C8_reported_sorted (p : Project) (c : Nat) :
    (reported_incoming p c).Pairwise
      (fun a b => compPathAt p a.component ≤ compPathAt p b.component) ∧
    (reported_outgoing p c).Pairwise
      (fun a b => compPathAt p a.component ≤ compPathAt p b.component) := by
  constructor <;>
  · refine List.Pairwise.imp ?_ (sortDeps_pairwise p _)
    intro a b h
    unfold depLE at h
    exact of_decide_eq_true h

/-- C9: no self-loops — starting from a state with empty edge lists, the
resolution pass never links a file to itself, because a file registered
under one of its own suffixes is a same-component candidate and suppresses
the whole entry. -/
theorem C9_no_self_loops (q : Project)
    (hempty : ∀ k, k < q.files.length → outAt q.files k = [] ∧ inAt q.files k = [])
    (i : Nat) :
    i ∉ outAt (generate_file_deps q).files i ∧
    i ∉ inAt (generate_file_deps q).files i := by
  constructor
  · rw [outAt_generate]
    by_cases hi : i < q.files.length
    · rw [if_pos hi, (hempty i hi).1]
      simpa using self_not_mem_outContrib q.files i
    · rw [if_neg hi, outAt_oor q.files i hi]
      simp
  · intro hmem
    have h1 : (inAt (generate_file_deps q).files i).count i = 0 := by
      rw [count_inAt_generate]
      have hin : (inAt q.files i).count i = 0 := by
        by_cases hi : i < q.files.length
        · rw [(hempty i hi).2]
          rfl
        · rw [inAt_oor q.files i hi]
          rfl
      have hc : (outContrib (pathToFiles q.files) q.files i).count i = 0 :=
        List.count_eq_zero.mpr (self_not_mem_outContrib q.files i)
      by_cases hi : i < q.files.length <;> simp [hin, hc, hi]
    exact (List.count_eq_zero.mp h1) hmem

/-- Witness for C9 at a concrete state: `a/x.h` includes `"x.h"`, a suffix
of its own path; no edge at all is produced. -/
theorem C9_no_self_loops_witness :
    0 ∉ outAt (generate_file_deps exC9q).files 0 ∧
    0 ∉ inAt (generate_file_deps exC9q).files 0 :=
  C9_no_self_loops exC9q (by decide) 0

/-- C3: cross-component fan-out with symmetric recording — starting from a
state with empty edge lists, resolving an inclusion string whose index
entry contains no file of the source's component creates an outgoing edge
to every file of the entry with the matching incoming record, and in the
finished graph the number of occurrences of `b` in `a`'s outgoing list
always equals the number of occurrences of `a` in `b`'s incoming list. -/
theorem C3_fanout_and_symmetry (q : Project)
    (hempty : ∀ k, k < q.files.length → outAt q.files k = [] ∧ inAt q.files k = []) :
    (∀ i s, i < q.files.length → s ∈ includesAt q.files i →
      pathToFiles q.files s ≠ [] →
      (∀ j ∈ pathToFiles q.files s, ¬compAt q.files j = compAt q.files i) →
      ∀ j ∈ pathToFiles q.files s,
        j ∈ outAt (generate_file_deps q).files i ∧
        i ∈ inAt (generate_file_deps q).files j) ∧
    (∀ a b, (outAt (generate_file_deps q).files a).count b =
      (inAt (generate_file_deps q).files b).count a) := by
  have hsym : ∀ a b, (outAt (generate_file_deps q).files a).count b =
      (inAt (generate_file_deps q).files b).count a := by
    intro a b
    rw [outAt_generate, count_inAt_generate]
    have hin0 : (inAt q.files b).count a = 0 := by
      by_cases hb : b < q.files.length
      · rw [(hempty b hb).2]
        rfl
      · rw [inAt_oor q.files b hb]
        rfl
    by_cases ha : a < q.files.length
    · rw [if_pos ha, (hempty a ha).1]
      by_cases hb : b < q.files.length
      · simp [hin0, ha, hb]
      · have hz : (outContrib (pathToFiles q.files) q.files a).count b = 0 :=
          List.count_eq_zero.mpr (fun hm => hb (mem_outContrib_lt q.files a b hm))
        simp [hin0, ha, hb, hz]
    · rw [if_neg ha, outAt_oor q.files a ha]
      simp [hin0, ha]
  refine ⟨?_, hsym⟩
  intro i s hi hs hne hnone j hj
  have hfires : fires (pathToFiles q.files) q.files i s = true := by
    unfold fires
    have h1 : ¬(pathToFiles q.files s).isEmpty = true := by
      cases hdeps : pathToFiles q.files s with
      | nil => exact absurd hdeps hne
      | cons a l => simp
    have h2 : sameComp q.files i (pathToFiles q.files s) = false := by
      unfold sameComp
      rw [List.any_eq_false]
      intro x hx
      simp [hnone x hx]
    simp [h1, h2]
  have hout : j ∈ outAt (generate_file_deps q).files i := by
    rw [outAt_generate, if_pos hi, (hempty i hi).1]
    have : j ∈ outContrib (pathToFiles q.files) q.files i := by
      unfold outContrib outContribL
      rw [mem_catMap]
      exact ⟨s, hs, by rw [if_pos hfires]; exact hj⟩
    simpa using this
  refine ⟨hout, ?_⟩
  by_contra hnotin
  have h0 : (inAt (generate_file_deps q).files j).count i = 0 :=
    List.count_eq_zero.mpr hnotin
  rw [← hsym i j] at h0
  exact (List.count_eq_zero.mp h0) hout

/-- Witness for C3 at a concrete state: `a/x.h` includes `"u.h"`, present
only in components `b` and `c`; both edges appear, with incoming records. -/
theorem C3_fanout_and_symmetry_witness :
    (1 ∈ outAt (generate_file_deps exC3q).files 0 ∧
      0 ∈ inAt (generate_file_deps exC3q).files 1) ∧
    (2 ∈ outAt (generate_file_deps exC3q).files 0 ∧
      0 ∈ inAt (generate_file_deps exC3q).files 2) :=
  ⟨(C3_fanout_and_symmetry exC3q (by decide)).1 0 "u.h" (by decide) (by decide)
      (by decide) (by decide) 1 (by decide),
    (C3_fanout_and_symmetry exC3q (by decide)).1 0 "u.h" (by decide) (by decide)
      (by decide) (by decide) 2 (by decide)⟩

/-- Counterexample to C4 as stated: with no marker directory at all the code
synthesizes no root component, and after assignment the file's owning
component reference is still nil — not every file ends up owned. -/
theorem C4_counterexample_no_root :
    compAt (assign_files_to_components (mkProject [("x.h", [])] [])).files 0 = none := by
  decide

/-- C4 amended: provided some component has path `""` (a marker file at the
root) and component file lists start empty, assignment gives every file a
non-null owning component and membership in exactly one component's file
list (once). -/
theorem C4_amended_totality (p : Project)
    (hroot : ∃ c ∈ p.components, c.path = "")
    (hfl : ∀ c ∈ p.components, c.files = []) (i : Nat) (hi : i < p.files.length) :
    ∃ j, compAt (assign_files_to_components p).files i = some j ∧
      ∀ c, (compFilesAt (assign_files_to_components p) c).count i =
        if c = j then 1 else 0 := by
  have hpath : ∃ pa, pathAt p.files i = some pa := by
    unfold pathAt
    rw [List.getElem?_eq_getElem hi]
    exact ⟨_, rfl⟩
  obtain ⟨pa, hpa⟩ := hpath
  have hown : (ownerOf p i).isSome := by
    unfold ownerOf
    rw [hpa]
    exact specOwner_isSome_of_root p.components pa hroot
  obtain ⟨j, hj⟩ := Option.isSome_iff_exists.mp hown
  refine ⟨j, ?_, ?_⟩
  · rw [assign_eq_fold, compAt_assignFold]
    simp [List.mem_range, hi, hown, hj]
  · intro c
    rw [assign_eq_fold, compFilesAt_assignFold, List.count_append]
    have hcomp0 : (compFilesAt p c).count i = 0 := by
      by_cases hc : c < p.components.length
      · have hmem : p.components[c] ∈ p.components := List.getElem_mem hc
        unfold compFilesAt
        rw [List.getElem?_eq_getElem hc]
        simp [hfl p.components[c] hmem]
      · unfold compFilesAt
        rw [List.getElem?_eq_none (by omega)]
        rfl
    rw [hcomp0, count_asgContrib, hj]
    have hr : (List.range p.files.length).count i = 1 :=
      List.count_eq_one_of_mem (List.nodup_range _) (List.mem_range.mpr hi)
    by_cases hcj : c = j
    · subst hcj
      simp [hr]
    · have : ¬(some j = some c) := by
        intro hh
        exact hcj (Option.some.inj hh).symm
      simp [hcj, this]

/-- Witness for C4 amended at a concrete project with a root marker and a
nested `a` marker: the file under `a` gets exactly one owner. -/
theorem C4_amended_totality_witness :
    ∃ j, compAt (assign_files_to_components
        (mkProject [("a/x.h", []), ("y.cpp", [])] ["", "a"])).files 0 = some j ∧
      ∀ c, (compFilesAt (assign_files_to_components
        (mkProject [("a/x.h", []), ("y.cpp", [])] ["", "a"])) c).count 0 =
        if c = j then 1 else 0 :=
  C4_amended_totality (mkProject [("a/x.h", []), ("y.cpp", [])] ["", "a"])
    (by decide) (by decide) 0 (by decide)

/-- Counterexample to C6 as stated: applying assignment plus resolution a
second time to the already-processed project does not reproduce the
single-run result — edge lists and component memberships are appended
again (idempotence fails on the mutable project state). -/
theorem C6_counterexample_second_run :
    runPasses (runPasses (mkProject [("a/x.h", ["y.h"]), ("b/y.h", [])] ["", "a", "b"])) ≠
      runPasses (mkProject [("a/x.h", ["y.h"]), ("b/y.h", [])] ["", "a", "b"]) := by
  decide

/-- C6 amended: the passes are deterministic functions of the pristine
input, so re-running them from the same immutable input reproduces the same
result; but applied a second time to the already-processed project they
append everything again — each outgoing list and each component file list
of the twice-run project is the once-run list self-concatenated, each
incoming multiplicity doubles, and the component assignment is unchanged. -/
theorem C6_amended_idempotence (input : List (String × List String))
    (comps : List String) :
    (∀ i, outAt (runPasses (runPasses (mkProject input comps))).files i =
      outAt (runPasses (mkProject input comps)).files i ++
      outAt (runPasses (mkProject input comps)).files i) ∧
    (∀ b x, (inAt (runPasses (runPasses (mkProject input comps))).files b).count x =
      2 * (inAt (runPasses (mkProject input comps)).files b).count x) ∧
    (∀ c, compFilesAt (runPasses (runPasses (mkProject input comps))) c =
      compFilesAt (runPasses (mkProject input comps)) c ++
      compFilesAt (runPasses (mkProject input comps)) c) ∧
    (∀ i, compAt (runPasses (runPasses (mkProject input comps))).files i =
      compAt (runPasses (mkProject input comps)).files i) :=
  runPasses_twice_aux (mkProject input comps)
    (outAt_mkProject input comps) (inAt_mkProject input comps)
    (compFilesAt_mkProject input comps)

/-- C10: no edge deduplication — starting from a state with empty edge
lists, the number of occurrences of target `j` in file `i`'s outgoing list
is exactly the number of inclusion-string occurrences of `i` that fire and
resolve to `j` (each duplicate raw string gives its own edge); and the
aggregated per-component buckets are the plain concatenation of every
qualifying occurrence of every link, so they keep every duplicate. -/
theorem C10_no_dedup (q : Project)
    (hempty : ∀ k, k < q.files.length → outAt q.files k = [] ∧ inAt q.files k = []) :
    (∀ i j, i < q.files.length →
      (outAt (generate_file_deps q).files i).count j =
        (includesAt q.files i).countP
          (fun s => fires (pathToFiles q.files) q.files i s &&
            decide (j ∈ pathToFiles q.files s))) ∧
    (∀ (r : Project) (c k : Nat),
      bucketGet (linked_outgoing r c) k = outEdgesToComp r c k ∧
      bucketGet (linked_incoming r c) k = inEdgesToComp r c k) := by
  constructor
  · intro i j hi
    rw [outAt_generate, if_pos hi, (hempty i hi).1]
    simpa using count_outContrib_eq_countP q.files i j
  · intro r c k
    exact ⟨bucketGet_linked_outgoing r c k, bucketGet_linked_incoming r c k⟩

/-- Witness for C10 at a concrete state: `a/x.h` names `b/y.h` through two
different raw strings; two edges result and the aggregated bucket for
component `b` keeps both occurrences. -/
theorem C10_no_dedup_witness :
    (outAt (generate_file_deps exC10q).files 0).count 1 = 2 ∧
    bucketGet (linked_outgoing (generate_file_deps exC10q) 0) 1 = [(0, 1), (0, 1)] := by
  constructor
  · have h := (C10_no_dedup exC10q (by decide)).1 0 1 (by decide)
    rw [h]
    decide
  · have h := ((C10_no_dedup exC10q (by decide)).2 (generate_file_deps exC10q) 0 1).1
    rw [h]
    decide

end Cppdep
